import Mathlib

/-!
Verification development for the `weak_list` library (`src/weak_list.rs`).

The Rust code is an intrusive doubly-linked list of weak slots.  Each heap
allocation (`Node`) holds a value, a strong reference count, a forward
pointer `next`, and a back pointer `prev_next` that refers to the *storage
cell* currently pointing at the node (either a list's head slot, or the
`next` field of the predecessor node).

The embedding models the heap explicitly:
* node addresses and list (head-slot) addresses are natural numbers,
  handed out by a fresh counter that is never reused;
* a storage cell of type `Option (node address)` is identified by a
  `CellId`: either the head slot of a list or the `next` field of a node;
* every operation of the source that dereferences a pointer returns
  `Option`, with `none` modelling an access to freed storage (which in the
  Rust source would be undefined behaviour);
* dropping a value is recorded in a `dropped` log, mirroring the
  drop-marker buffer of the crate's own test.
-/

set_option maxHeartbeats 1000000

/-- Identifier of a storage cell that holds an optional node pointer:
either the head slot of list `l`, or the `next` field of node `a`. -/
inductive CellId where
  | headCell (l : Nat)
  | nextCell (a : Nat)
deriving DecidableEq, Repr

/-- One list node, as in `struct Node<T>` of the source: the stored value,
the strong reference count, the back pointer `prev_next` and the forward
pointer `next`. -/
structure Node (α : Type) where
  value : α
  strong_count : Nat
  prev_next : Option CellId
  next : Option Nat
deriving DecidableEq, Repr

/-- The modelled heap: allocated head slots (one per live `WeakList`),
allocated nodes, the log of dropped values, and the fresh-address counter. -/
structure Mem (α : Type) where
  heads : List (Nat × Option Nat)
  nodes : List (Nat × Node α)
  dropped : List α
  fresh : Nat
deriving DecidableEq, Repr

/-- Association-list lookup by key. -/
def alook {β : Type _} (k : Nat) : List (Nat × β) → Option β
  | [] => none
  | (k', v) :: rest => if k' = k then some v else alook k rest

/-- Association-list update of the first entry with the given key
(no-op when the key is absent). -/
def aset {β : Type _} (k : Nat) (v : β) : List (Nat × β) → List (Nat × β)
  | [] => []
  | (k', v') :: rest => if k' = k then (k', v) :: rest else (k', v') :: aset k v rest

/-- Association-list removal of all entries with the given key. -/
def adel {β : Type _} (k : Nat) : List (Nat × β) → List (Nat × β)
  | [] => []
  | (k', v') :: rest => if k' = k then adel k rest else (k', v') :: adel k rest

/-- Read the node stored at address `a`, if allocated. -/
def getNode (m : Mem α) (a : Nat) : Option (Node α) := alook a m.nodes

/-- Overwrite the node stored at address `a` (no-op when unallocated). -/
def setNode (m : Mem α) (a : Nat) (nd : Node α) : Mem α :=
  { m with nodes := aset a nd m.nodes }

/-- Read the head slot of list `l`, if allocated. -/
def getHead (m : Mem α) (l : Nat) : Option (Option Nat) := alook l m.heads

/-- Dereference a cell identifier; `none` when the cell's owner is freed. -/
def readCell (m : Mem α) : CellId → Option (Option Nat)
  | CellId.headCell l => getHead m l
  | CellId.nextCell a => (getNode m a).map Node.next

/-- Write through a cell identifier; `none` models a write to freed
storage (undefined behaviour in the source). -/
def writeCell (m : Mem α) : CellId → Option Nat → Option (Mem α)
  | CellId.headCell l, v =>
    match getHead m l with
    | none => none
    | some _ => some { m with heads := aset l v m.heads }
  | CellId.nextCell a, v =>
    match getNode m a with
    | none => none
    | some nd => some (setNode m a { nd with next := v })

/-- Write the `prev_next` field of node `a`; `none` when `a` is freed. -/
def setPrevNext (m : Mem α) (a : Nat) (c : Option CellId) : Option (Mem α) :=
  match getNode m a with
  | none => none
  | some nd => some (setNode m a { nd with prev_next := c })

/-- Translation of `Node::new_before`: allocate a node whose `next` is the
given pointer (count 0, `prev_next` unset); if the occupant exists,
rewrite the occupant's `prev_next` to the new node's `next` field. -/
def Node.new_before (m : Mem α) (next_ptr : Option Nat) (value : α) :
    Option (Mem α × Nat) :=
  let a := m.fresh
  let m1 : Mem α :=
    { m with
      nodes := (a, { value := value, strong_count := 0, prev_next := none,
                     next := next_ptr }) :: m.nodes,
      fresh := m.fresh + 1 }
  match next_ptr with
  | none => some (m1, a)
  | some nx =>
    match setPrevNext m1 nx (some (CellId.nextCell a)) with
    | none => none
    | some m2 => some (m2, a)

/-- Translation of `Node::unlink`: if `prev_next` is unset this is a no-op;
otherwise take `prev_next` (clearing it), write this node's `next` value
through it, and if the (re-read) `next` is a node, rewrite that node's
`prev_next`.  Note the source does not clear the node's own `next`. -/
def Node.unlink (m : Mem α) (a : Nat) : Option (Mem α) :=
  match getNode m a with
  | none => none
  | some nd =>
    match nd.prev_next with
    | none => some m
    | some p =>
      let m1 := setNode m a { nd with prev_next := none }
      match writeCell m1 p nd.next with
      | none => none
      | some m2 =>
        match getNode m2 a with
        | none => none
        | some nd2 =>
          match nd2.next with
          | none => some m2
          | some nx => setPrevNext m2 nx (some p)

/-- Translation of `Handle::from_raw_node`: increment the strong count.
A handle is represented by the address of its node. -/
def Handle.from_raw_node (m : Mem α) (a : Nat) : Option (Mem α) :=
  match getNode m a with
  | none => none
  | some nd => some (setNode m a { nd with strong_count := nd.strong_count + 1 })

/-- Translation of `Handle::detach`: unlink the referenced node. -/
def Handle.detach (m : Mem α) (a : Nat) : Option (Mem α) := Node.unlink m a

/-- Translation of `Handle::clone`: increment the strong count and share
the same node. -/
def Handle.clone (m : Mem α) (a : Nat) : Option (Mem α) :=
  match getNode m a with
  | none => none
  | some nd => some (setNode m a { nd with strong_count := nd.strong_count + 1 })

/-- Translation of `Handle`'s `Deref`: read the stored value. -/
def Handle.deref (m : Mem α) (a : Nat) : Option α := (getNode m a).map Node.value

/-- Free the node's box, destroying (logging) its value, as in
`drop(Box::from_raw(..))`. -/
def freeNode (m : Mem α) (a : Nat) : Option (Mem α) :=
  match getNode m a with
  | none => none
  | some nd =>
    some { m with nodes := adel a m.nodes, dropped := m.dropped ++ [nd.value] }

/-- Translation of `impl Drop for Handle`: at count 1, detach then free the
node (dropping the value); otherwise only decrement the count. -/
def Handle.drop (m : Mem α) (a : Nat) : Option (Mem α) :=
  match getNode m a with
  | none => none
  | some nd =>
    match nd.strong_count with
    | 1 =>
      match Handle.detach m a with
      | none => none
      | some m1 => freeNode m1 a
    | x => some (setNode m a { nd with strong_count := x - 1 })

/-- Translation of `Handle::try_unwrap`: always detach first; at count 1
free the box and return the value by move (no drop is logged, the value is
returned), otherwise give the handle back. `Sum.inl` is `Ok`, `Sum.inr`
is `Err`. -/
def Handle.try_unwrap (m : Mem α) (a : Nat) : Option (Mem α × Sum α Nat) :=
  match Handle.detach m a with
  | none => none
  | some m1 =>
    match getNode m1 a with
    | none => none
    | some nd =>
      match nd.strong_count with
      | 1 => some ({ m1 with nodes := adel a m1.nodes }, Sum.inl nd.value)
      | _ => some (m1, Sum.inr a)

/-- Translation of `WeakList::new`: allocate an empty head slot; the list
is identified by the address of that slot. -/
def WeakList.new (m : Mem α) : Mem α × Nat :=
  ({ m with heads := (m.fresh, none) :: m.heads, fresh := m.fresh + 1 }, m.fresh)

/-- Destruction of a `WeakList` value: the source has no `Drop`
implementation, so dropping the list only frees the boxed head slot and
touches nothing else. -/
def WeakList.dropList (m : Mem α) (l : Nat) : Mem α :=
  { m with heads := adel l m.heads }

/-- Translation of `WeakList::new_elem`: read the head, allocate the new
node before the old first node, point its `prev_next` at the head slot,
store it in the head slot, and wrap it into a handle. -/
def WeakList.new_elem (m : Mem α) (l : Nat) (value : α) : Option (Mem α × Nat) :=
  match getHead m l with
  | none => none
  | some old_first =>
    match Node.new_before m old_first value with
    | none => none
    | some (m1, a) =>
      match setPrevNext m1 a (some (CellId.headCell l)) with
      | none => none
      | some m2 =>
        match writeCell m2 (CellId.headCell l) (some a) with
        | none => none
        | some m3 =>
          match Handle.from_raw_node m3 a with
          | none => none
          | some m4 => some (m4, a)

/-- Fuel-indexed walk used by `upgrade_all`: visit the chain, upgrading
(incrementing the count of) every node, head first. -/
def upgradeAux : Nat → Mem α → Option Nat → Option (Mem α × List Nat)
  | _, m, none => some (m, [])
  | 0, _, some _ => none
  | fuel + 1, m, some a =>
    match Handle.from_raw_node m a with
    | none => none
    | some m1 =>
      match getNode m1 a with
      | none => none
      | some nd =>
        match upgradeAux fuel m1 nd.next with
        | none => none
        | some (m2, rest) => some (m2, a :: rest)

/-- Translation of `WeakList::upgrade_all`: walk the chain from the head,
producing one upgraded handle per linked node.  The fuel exceeds the
number of allocated nodes, so it never runs out on a well-formed list. -/
def WeakList.upgrade_all (m : Mem α) (l : Nat) : Option (Mem α × List Nat) :=
  match getHead m l with
  | none => none
  | some v => upgradeAux (m.nodes.length + 1) m v

/-- Detach every handle of the list in order, as in
`v.iter().for_each(|h| Handle::detach(&h))`. -/
def detachAll : Mem α → List Nat → Option (Mem α)
  | m, [] => some m
  | m, a :: rest =>
    match Handle.detach m a with
    | none => none
    | some m1 => detachAll m1 rest

/-- Translation of `WeakList::take_all`: `upgrade_all`, then detach every
produced handle. -/
def WeakList.take_all (m : Mem α) (l : Nat) : Option (Mem α × List Nat) :=
  match WeakList.upgrade_all m l with
  | none => none
  | some (m1, hs) =>
    match detachAll m1 hs with
    | none => none
    | some m2 => some (m2, hs)

/-- Drop every handle of the list in order (the `Vec<Handle>` returned by
`take_all` is dropped when `clear` returns). -/
def dropAll : Mem α → List Nat → Option (Mem α)
  | m, [] => some m
  | m, a :: rest =>
    match Handle.drop m a with
    | none => none
    | some m1 => dropAll m1 rest

/-- Translation of `WeakList::clear`: `self.take_all();` takes all handles
and immediately drops the returned vector. -/
def WeakList.clear (m : Mem α) (l : Nat) : Option (Mem α) :=
  match WeakList.take_all m l with
  | none => none
  | some (m1, hs) => dropAll m1 hs

/-! State projections and the well-formedness invariant. -/

/-- Projection: the `prev_next` field of node `a`, when allocated. -/
def prevOf (m : Mem α) (a : Nat) : Option (Option CellId) :=
  (getNode m a).map Node.prev_next

/-- Projection: the `next` field of node `a`, when allocated. -/
def nextOf (m : Mem α) (a : Nat) : Option (Option Nat) :=
  (getNode m a).map Node.next

/-- Projection: the value of node `a`, when allocated. -/
def valOf (m : Mem α) (a : Nat) : Option α := (getNode m a).map Node.value

/-- Projection: the strong count of node `a`, when allocated. -/
def countOf (m : Mem α) (a : Nat) : Option Nat :=
  (getNode m a).map Node.strong_count

/-- Allocated list (head-slot) addresses. -/
def hkeys (m : Mem α) : List Nat := m.heads.map Prod.fst

/-- Allocated node addresses. -/
def nkeys (m : Mem α) : List Nat := m.nodes.map Prod.fst

/-- Fuel-indexed computation of the chain of node addresses reachable from
an optional node pointer; `none` when the fuel runs out (a cycle) or a
pointer dangles. -/
def chainF (m : Mem α) : Nat → Option Nat → Option (List Nat)
  | _, none => some []
  | 0, some _ => none
  | fuel + 1, some a =>
    match getNode m a with
    | none => none
    | some nd =>
      match chainF m fuel nd.next with
      | none => none
      | some rest => some (a :: rest)

/-- The chain reachable from a pointer, with fuel covering every possible
acyclic chain. -/
def chain (m : Mem α) (v : Option Nat) : Option (List Nat) :=
  chainF m m.nodes.length v

/-- The chain of list `l` (empty for a freed or failing list). -/
def listChain (m : Mem α) (l : Nat) : List Nat :=
  match getHead m l with
  | none => []
  | some v => (chain m v).getD []

/-- The cell that points at a node whose predecessor in the chain of list
`l` is `pred` (`none` meaning the node is first). -/
def backPtr (l : Nat) : Option Nat → CellId
  | none => CellId.headCell l
  | some w => CellId.nextCell w

/-- Segment well-formedness for list `l`: starting after predecessor
`pred`, the cell `backPtr l pred` points at the successive nodes of `cs`,
each of which carries the correct `prev_next` back pointer, and the final
cell holds `none`. -/
def goodSeg (m : Mem α) (l : Nat) : Option Nat → List Nat → Prop
  | pred, [] => readCell m (backPtr l pred) = some none
  | pred, a :: rest =>
    readCell m (backPtr l pred) = some (some a) ∧
    prevOf m a = some (some (backPtr l pred)) ∧
    goodSeg m l (some a) rest

instance goodSegDecidable (m : Mem α) (l : Nat) :
    (pred : Option Nat) → (cs : List Nat) → Decidable (goodSeg m l pred cs)
  | _, [] => by unfold goodSeg; infer_instance
  | pred, a :: rest =>
    have : Decidable (goodSeg m l (some a) rest) := goodSegDecidable m l (some a) rest
    by unfold goodSeg; infer_instance

/-- The chain of a head value computes and is segment-well-formed. -/
def chainGood (m : Mem α) (l : Nat) (v : Option Nat) : Prop :=
  match chain m v with
  | none => False
  | some cs => goodSeg m l none cs

instance chainGoodDecidable (m : Mem α) (l : Nat) (v : Option Nat) :
    Decidable (chainGood m l v) :=
  match h : chain m v with
  | none => isFalse (fun hc => by simp [chainGood, h] at hc)
  | some cs => decidable_of_iff (goodSeg m l none cs) (by simp [chainGood, h])

/-- Well-formedness of the modelled heap: allocated addresses are unique
and below the fresh counter; every list's chain computes (finite, no
dangling pointer) and carries correct back pointers; chains have no
duplicates and are pairwise disjoint; every node outside all chains has
`prev_next` unset; and every allocated node has strong count at least 1. -/
def WF (m : Mem α) : Prop :=
  (hkeys m).Nodup ∧ (nkeys m).Nodup ∧
  (∀ k ∈ hkeys m, k < m.fresh) ∧ (∀ k ∈ nkeys m, k < m.fresh) ∧
  (∀ p ∈ m.heads, chainGood m p.1 p.2) ∧
  (∀ p ∈ m.heads, ((chain m p.2).getD []).Nodup) ∧
  (∀ p ∈ m.heads, ∀ q ∈ m.heads, p.1 ≠ q.1 →
    ∀ x ∈ (chain m p.2).getD [], x ∉ (chain m q.2).getD []) ∧
  (∀ e ∈ m.nodes, (∀ p ∈ m.heads, e.1 ∉ (chain m p.2).getD []) →
    e.2.prev_next = none) ∧
  (∀ e ∈ m.nodes, 1 ≤ e.2.strong_count)

instance wfDecidable (m : Mem α) : Decidable (WF m) := by
  unfold WF; infer_instance

/-! Association-list lemmas. -/

theorem alook_aset_self {β : Type _} (k : Nat) (v : β) (L : List (Nat × β)) :
    alook k (aset k v L) = (alook k L).map (fun _ => v) := by
  induction L with
  | nil => simp [alook, aset]
  | cons e rest ih =>
    obtain ⟨k', v'⟩ := e
    by_cases h : k' = k <;> simp [alook, aset, h, ih]

theorem alook_aset_ne {β : Type _} {k k' : Nat} (h : k' ≠ k) (v : β)
    (L : List (Nat × β)) : alook k (aset k' v L) = alook k L := by
  induction L with
  | nil => simp [alook, aset]
  | cons e rest ih =>
    obtain ⟨k'', v''⟩ := e
    by_cases h2 : k'' = k'
    · subst h2; simp [alook, aset, h]
    · by_cases h3 : k'' = k <;> simp [alook, aset, h2, h3, ih, Ne.symm h]

theorem alook_adel_self {β : Type _} (k : Nat) (L : List (Nat × β)) :
    alook k (adel k L) = none := by
  induction L with
  | nil => simp [alook, adel]
  | cons e rest ih =>
    obtain ⟨k', v'⟩ := e
    by_cases h : k' = k <;> simp [alook, adel, h, ih]

theorem alook_adel_ne {β : Type _} {k k' : Nat} (h : k ≠ k')
    (L : List (Nat × β)) : alook k (adel k' L) = alook k L := by
  induction L with
  | nil => simp [alook, adel]
  | cons e rest ih =>
    obtain ⟨k'', v''⟩ := e
    by_cases h2 : k'' = k'
    · subst h2; simp [alook, adel, Ne.symm h, ih]
    · by_cases h3 : k'' = k <;> simp [alook, adel, h2, h3, ih, h]

theorem aset_keys {β : Type _} (k : Nat) (v : β) (L : List (Nat × β)) :
    (aset k v L).map Prod.fst = L.map Prod.fst := by
  induction L with
  | nil => simp [aset]
  | cons e rest ih =>
    obtain ⟨k', v'⟩ := e
    by_cases h : k' = k <;> simp [aset, h, ih]

theorem adel_sublist {β : Type _} (k : Nat) (L : List (Nat × β)) :
    (adel k L).Sublist L := by
  induction L with
  | nil => simp [adel]
  | cons e rest ih =>
    obtain ⟨k', v'⟩ := e
    by_cases h : k' = k <;> simp [adel, h]
    · exact ih.cons _
    · exact ih

theorem aset_eq_self {β : Type _} {k : Nat} {v : β} {L : List (Nat × β)}
    (h : alook k L = some v) : aset k v L = L := by
  induction L with
  | nil => simp [aset]
  | cons e rest ih =>
    obtain ⟨k', v'⟩ := e
    by_cases h2 : k' = k
    · subst h2
      simp [alook] at h
      simp [aset, h]
    · simp [alook, h2] at h
      simp [aset, h2, ih h]

theorem aset_aset {β : Type _} (k : Nat) (v v' : β) (L : List (Nat × β)) :
    aset k v (aset k v' L) = aset k v L := by
  induction L with
  | nil => simp [aset]
  | cons e rest ih =>
    obtain ⟨k', v''⟩ := e
    by_cases h : k' = k <;> simp [aset, h, ih]

theorem adel_of_not_mem {β : Type _} {k : Nat} {L : List (Nat × β)}
    (h : k ∉ L.map Prod.fst) : adel k L = L := by
  induction L with
  | nil => simp [adel]
  | cons e rest ih =>
    obtain ⟨k', v'⟩ := e
    simp only [List.map_cons, List.mem_cons, not_or] at h
    simp [adel, Ne.symm h.1, ih h.2]

theorem adel_aset {β : Type _} (k : Nat) (v : β) (L : List (Nat × β)) :
    adel k (aset k v L) = adel k L := by
  induction L with
  | nil => simp [adel, aset]
  | cons e rest ih =>
    obtain ⟨k', v'⟩ := e
    by_cases h : k' = k <;> simp [adel, aset, h, ih]

theorem alook_mem_keys {β : Type _} {k : Nat} {v : β} {L : List (Nat × β)}
    (h : alook k L = some v) : k ∈ L.map Prod.fst := by
  induction L with
  | nil => simp [alook] at h
  | cons e rest ih =>
    obtain ⟨k', v'⟩ := e
    by_cases h2 : k' = k
    · subst h2; simp
    · simp [alook, h2] at h
      simp [ih h]

theorem alook_eq_none_of_not_mem {β : Type _} {k : Nat} {L : List (Nat × β)}
    (h : k ∉ L.map Prod.fst) : alook k L = none := by
  cases h2 : alook k L with
  | none => rfl
  | some v => exact absurd (alook_mem_keys h2) h

theorem mem_of_alook {β : Type _} {k : Nat} {v : β} {L : List (Nat × β)}
    (h : alook k L = some v) : (k, v) ∈ L := by
  induction L with
  | nil => simp [alook] at h
  | cons e rest ih =>
    obtain ⟨k', v'⟩ := e
    by_cases h2 : k' = k
    · subst h2
      simp [alook] at h
      simp [h]
    · simp [alook, h2] at h
      simp [ih h]

theorem alook_of_mem {β : Type _} {k : Nat} {v : β} {L : List (Nat × β)}
    (hnd : (L.map Prod.fst).Nodup) (h : (k, v) ∈ L) : alook k L = some v := by
  induction L with
  | nil => simp at h
  | cons e rest ih =>
    obtain ⟨k', v'⟩ := e
    simp only [List.map_cons, List.nodup_cons] at hnd
    simp only [List.mem_cons] at h
    rcases h with ⟨rfl, rfl⟩ | h
    · simp [alook]
    · have hk : k' ≠ k := by
        rintro rfl
        exact hnd.1 (List.mem_map_of_mem Prod.fst h)
      simp [alook, hk, ih hnd.2 h]

theorem mem_aset {β : Type _} {k : Nat} {v : β} {L : List (Nat × β)}
    {e : Nat × β} (hnd : (L.map Prod.fst).Nodup) (h : e ∈ aset k v L) :
    (e.1 = k ∧ e.2 = v ∧ k ∈ L.map Prod.fst) ∨ (e ∈ L ∧ e.1 ≠ k) := by
  induction L with
  | nil => simp [aset] at h
  | cons e' rest ih =>
    obtain ⟨k', v'⟩ := e'
    simp only [List.map_cons, List.nodup_cons] at hnd
    by_cases h2 : k' = k
    · subst h2
      simp [aset, List.mem_cons] at h
      rcases h with heq | h
      · subst heq
        exact Or.inl ⟨rfl, rfl, by simp⟩
      · refine Or.inr ⟨List.mem_cons_of_mem _ h, ?_⟩
        intro hek
        exact hnd.1 (hek ▸ List.mem_map_of_mem Prod.fst h)
    · simp [aset, h2, List.mem_cons] at h
      rcases h with heq | h
      · subst heq
        exact Or.inr ⟨by simp, h2⟩
      · rcases ih hnd.2 h with ⟨ha, hb, hc⟩ | ⟨ha, hb⟩
        · exact Or.inl ⟨ha, hb, by simp [hc]⟩
        · exact Or.inr ⟨List.mem_cons_of_mem _ ha, hb⟩

theorem mem_adel {β : Type _} {k : Nat} {L : List (Nat × β)} {e : Nat × β}
    (h : e ∈ adel k L) : e ∈ L ∧ e.1 ≠ k := by
  induction L with
  | nil => simp [adel] at h
  | cons e' rest ih =>
    obtain ⟨k', v'⟩ := e'
    by_cases h2 : k' = k
    · subst h2
      simp [adel] at h
      obtain ⟨ha, hb⟩ := ih h
      exact ⟨List.mem_cons_of_mem _ ha, hb⟩
    · simp [adel, h2] at h
      rcases h with rfl | h
      · exact ⟨by simp, h2⟩
      · obtain ⟨ha, hb⟩ := ih h
        exact ⟨List.mem_cons_of_mem _ ha, hb⟩

/-! Frame lemmas for heap accessors. -/

theorem readCell_headCell (m : Mem α) (l : Nat) :
    readCell m (CellId.headCell l) = getHead m l := rfl

theorem readCell_nextCell (m : Mem α) (a : Nat) :
    readCell m (CellId.nextCell a) = nextOf m a := rfl

theorem heads_setNode (m : Mem α) (a : Nat) (nd : Node α) :
    (setNode m a nd).heads = m.heads := rfl

theorem getHead_setNode (m : Mem α) (a : Nat) (nd : Node α) (l : Nat) :
    getHead (setNode m a nd) l = getHead m l := rfl

theorem getNode_setNode_self (m : Mem α) (a : Nat) (nd : Node α) :
    getNode (setNode m a nd) a = (getNode m a).map (fun _ => nd) := by
  simp [getNode, setNode, alook_aset_self]

theorem getNode_setNode_ne (m : Mem α) {a a' : Nat} (h : a' ≠ a) (nd : Node α) :
    getNode (setNode m a' nd) a = getNode m a := by
  simp [getNode, setNode, alook_aset_ne h]

theorem nkeys_setNode (m : Mem α) (a : Nat) (nd : Node α) :
    nkeys (setNode m a nd) = nkeys m := by
  simp [nkeys, setNode, aset_keys]

theorem dropped_setNode (m : Mem α) (a : Nat) (nd : Node α) :
    (setNode m a nd).dropped = m.dropped := rfl

theorem fresh_setNode (m : Mem α) (a : Nat) (nd : Node α) :
    (setNode m a nd).fresh = m.fresh := rfl

theorem prevOf_eq_some {m : Mem α} {x : Nat} {c : Option CellId}
    (h : prevOf m x = some c) : ∃ nd, getNode m x = some nd ∧ nd.prev_next = c := by
  unfold prevOf at h
  cases h2 : getNode m x with
  | none => rw [h2] at h; simp at h
  | some nd => rw [h2] at h; simp at h; exact ⟨nd, rfl, h⟩

theorem nextOf_eq_some {m : Mem α} {x : Nat} {v : Option Nat}
    (h : nextOf m x = some v) : ∃ nd, getNode m x = some nd ∧ nd.next = v := by
  unfold nextOf at h
  cases h2 : getNode m x with
  | none => rw [h2] at h; simp at h
  | some nd => rw [h2] at h; simp at h; exact ⟨nd, rfl, h⟩

theorem getNode_mem_nkeys {m : Mem α} {x : Nat} {nd : Node α}
    (h : getNode m x = some nd) : x ∈ nkeys m := alook_mem_keys h

theorem getHead_mem_hkeys {m : Mem α} {l : Nat} {v : Option Nat}
    (h : getHead m l = some v) : l ∈ hkeys m := alook_mem_keys h

/-! Equations and basic lemmas for `goodSeg` and `chainF`. -/

theorem goodSeg_nil {m : Mem α} {l : Nat} {pred : Option Nat} :
    goodSeg m l pred [] ↔ readCell m (backPtr l pred) = some none := Iff.rfl

theorem goodSeg_cons {m : Mem α} {l : Nat} {pred : Option Nat} {a : Nat}
    {cs : List Nat} :
    goodSeg m l pred (a :: cs) ↔
      readCell m (backPtr l pred) = some (some a) ∧
      prevOf m a = some (some (backPtr l pred)) ∧
      goodSeg m l (some a) cs := Iff.rfl

theorem chainF_none (m : Mem α) (fuel : Nat) : chainF m fuel none = some [] := by
  cases fuel <;> rfl

theorem readCell_backPtr_none (m : Mem α) (l : Nat) :
    readCell m (backPtr l none) = getHead m l := rfl

theorem readCell_backPtr_some (m : Mem α) (l w : Nat) :
    readCell m (backPtr l (some w)) = nextOf m w := rfl

theorem goodSeg_congr {m m' : Mem α} {l : Nat} :
    ∀ {pred : Option Nat} {cs : List Nat},
    (∀ x ∈ cs, prevOf m' x = prevOf m x) →
    (∀ x, pred = some x ∨ x ∈ cs → nextOf m' x = nextOf m x) →
    (pred = none → getHead m' l = getHead m l) →
    goodSeg m l pred cs → goodSeg m' l pred cs
  | pred, [], hp, hn, hh, hg => by
    rw [goodSeg_nil] at hg ⊢
    cases pred with
    | none => rw [readCell_backPtr_none] at hg ⊢; rw [hh rfl]; exact hg
    | some w =>
      rw [readCell_backPtr_some] at hg ⊢
      rw [hn w (Or.inl rfl)]; exact hg
  | pred, a :: cs, hp, hn, hh, hg => by
    rw [goodSeg_cons] at hg ⊢
    obtain ⟨h1, h2, h3⟩ := hg
    refine ⟨?_, ?_, ?_⟩
    · cases pred with
      | none => rw [readCell_backPtr_none] at h1 ⊢; rw [hh rfl]; exact h1
      | some w =>
        rw [readCell_backPtr_some] at h1 ⊢
        rw [hn w (Or.inl rfl)]; exact h1
    · rw [hp a (List.mem_cons_self a cs)]; exact h2
    · exact goodSeg_congr
        (fun x hx => hp x (List.mem_cons_of_mem _ hx))
        (fun x hx => hn x (by
          rcases hx with hx | hx
          · injection hx with hax
            exact Or.inr (by rw [← hax]; exact List.mem_cons_self a cs)
          · exact Or.inr (List.mem_cons_of_mem _ hx)))
        (fun hcontra => by cases hcontra)
        h3

theorem goodSeg_alloc {m : Mem α} {l : Nat} :
    ∀ {pred : Option Nat} {cs : List Nat}, goodSeg m l pred cs →
    ∀ x ∈ cs, ∃ nd, getNode m x = some nd
  | _, [], _, x, hx => absurd hx (List.not_mem_nil x)
  | pred, a :: cs, hg, x, hx => by
    rw [goodSeg_cons] at hg
    obtain ⟨h1, h2, h3⟩ := hg
    rcases List.mem_cons.mp hx with rfl | hx
    · obtain ⟨nd, hnd, _⟩ := prevOf_eq_some h2
      exact ⟨nd, hnd⟩
    · exact goodSeg_alloc h3 x hx

theorem goodSeg_subset_nkeys {m : Mem α} {l : Nat} {pred : Option Nat}
    {cs : List Nat} (hg : goodSeg m l pred cs) : ∀ x ∈ cs, x ∈ nkeys m := by
  intro x hx
  obtain ⟨nd, hnd⟩ := goodSeg_alloc hg x hx
  exact getNode_mem_nkeys hnd

theorem goodSeg_next_head {m : Mem α} {l : Nat} {a : Nat} {cs : List Nat}
    (hg : goodSeg m l (some a) cs) : nextOf m a = some cs.head? := by
  cases cs with
  | nil => rw [goodSeg_nil] at hg; exact hg
  | cons b cs => rw [goodSeg_cons] at hg; exact hg.1

theorem goodSeg_chainF {m : Mem α} {l : Nat} :
    ∀ {cs : List Nat} {pred : Option Nat} {fuel : Nat},
    goodSeg m l pred cs → cs.length ≤ fuel →
    chainF m fuel cs.head? = some cs
  | [], pred, fuel, _, _ => by simp [chainF_none]
  | a :: cs, pred, fuel, hg, hlen => by
    rw [goodSeg_cons] at hg
    obtain ⟨h1, h2, h3⟩ := hg
    obtain ⟨nd, hnd, _⟩ := prevOf_eq_some h2
    cases fuel with
    | zero => simp at hlen
    | succ f =>
      have hnext : nd.next = cs.head? := by
        have := goodSeg_next_head h3
        rw [nextOf, hnd] at this
        simpa using this
      have ih : chainF m f cs.head? = some cs :=
        goodSeg_chainF h3 (by simpa using Nat.le_of_succ_le_succ hlen)
      simp [chainF, hnd, hnext, ih]

theorem goodSeg_getHead {m : Mem α} {l : Nat} {cs : List Nat}
    (hg : goodSeg m l none cs) : getHead m l = some cs.head? := by
  cases cs with
  | nil => rw [goodSeg_nil] at hg; exact hg
  | cons a cs => rw [goodSeg_cons] at hg; exact hg.1

/-! Concrete heaps used to evaluate the code at specific inputs. -/

/-- Empty heap. -/
def mem0 : Mem Nat := { heads := [], nodes := [], dropped := [], fresh := 0 }

/-- Heap with one empty list at address 0. -/
def memL : Mem Nat := (WeakList.new mem0).1

/-- Heap after pushing value 10 into list 0; the handle (node address 1)
stays live. -/
def memL1 : Mem Nat := ((WeakList.new_elem memL 0 10).getD (mem0, 0)).1

/-- The heap after additionally pushing value 20 (node address 2). -/
def memL2 : Mem Nat := ((WeakList.new_elem memL1 0 20).getD (mem0, 0)).1

/-- The heap `memL1` after the `WeakList` itself is destroyed: its boxed
head slot is freed, node 1 is untouched and still holds a handle. -/
def memL1d : Mem Nat := WeakList.dropList memL1 0

/-- Claim C1, evaluation at a failing input: push one value into a list,
keep the handle, destroy the list.  The surviving node's `prev_next`
still refers to the destroyed head slot (it is *not* implicitly
unlinked), and while the handle still dereferences to its value, both
`detach` (`unlink`) and the final handle drop write through the dangling
`prev_next` into the freed head slot, modelled as the memory fault
`none`.  This contradicts the claim that such a handle can later be
detached or dropped with no access to freed list storage. -/
theorem c1_list_drop_leaves_dangling_prev_next :
    WeakList.new_elem memL 0 10 = some (memL1, 1) ∧
    prevOf memL1 1 = some (some (CellId.headCell 0)) ∧
    prevOf memL1d 1 = some (some (CellId.headCell 0)) ∧
    readCell memL1d (CellId.headCell 0) = none ∧
    Handle.deref memL1d 1 = some 10 ∧
    Node.unlink memL1d 1 = none ∧
    Handle.drop memL1d 1 = none := by decide

/-- The heap after unlinking node 2 (the first of the two nodes) in
`memL2`. -/
def memU2 : Mem Nat := (Node.unlink memL2 2).getD mem0

/-- Claim C2, counterexample: after `unlink()` on a linked node the
node's own `next` field is NOT cleared (it still holds the old successor,
node 1), contradicting the claimed postcondition that both `next` and
`prev_next` are cleared.  Only `prev_next` is cleared. -/
theorem c2_unlink_does_not_clear_next :
    Node.unlink memL2 2 = some memU2 ∧
    prevOf memU2 2 = some none ∧
    nextOf memU2 2 = some (some 1) ∧
    ¬ nextOf memU2 2 = some none := by decide

/-! Projection lemmas for node updates. -/

theorem prevOf_setNode_self {m : Mem α} {a : Nat} {nd0 : Node α}
    (h : getNode m a = some nd0) (nd : Node α) :
    prevOf (setNode m a nd) a = some nd.prev_next := by
  simp [prevOf, getNode_setNode_self, h]

theorem prevOf_setNode_ne {m : Mem α} {a' a : Nat} (h : a' ≠ a) (nd : Node α) :
    prevOf (setNode m a' nd) a = prevOf m a := by
  simp [prevOf, getNode_setNode_ne _ h]

theorem nextOf_setNode_self {m : Mem α} {a : Nat} {nd0 : Node α}
    (h : getNode m a = some nd0) (nd : Node α) :
    nextOf (setNode m a nd) a = some nd.next := by
  simp [nextOf, getNode_setNode_self, h]

theorem nextOf_setNode_ne {m : Mem α} {a' a : Nat} (h : a' ≠ a) (nd : Node α) :
    nextOf (setNode m a' nd) a = nextOf m a := by
  simp [nextOf, getNode_setNode_ne _ h]

theorem countOf_setNode_self {m : Mem α} {a : Nat} {nd0 : Node α}
    (h : getNode m a = some nd0) (nd : Node α) :
    countOf (setNode m a nd) a = some nd.strong_count := by
  simp [countOf, getNode_setNode_self, h]

theorem countOf_setNode_ne {m : Mem α} {a' a : Nat} (h : a' ≠ a) (nd : Node α) :
    countOf (setNode m a' nd) a = countOf m a := by
  simp [countOf, getNode_setNode_ne _ h]

theorem valOf_setNode_self {m : Mem α} {a : Nat} {nd0 : Node α}
    (h : getNode m a = some nd0) (nd : Node α) :
    valOf (setNode m a nd) a = some nd.value := by
  simp [valOf, getNode_setNode_self, h]

theorem valOf_setNode_ne {m : Mem α} {a' a : Nat} (h : a' ≠ a) (nd : Node α) :
    valOf (setNode m a' nd) a = valOf m a := by
  simp [valOf, getNode_setNode_ne _ h]

theorem hkeys_setNode (m : Mem α) (a : Nat) (nd : Node α) :
    hkeys (setNode m a nd) = hkeys m := rfl


/-- Heap with the head slot of list `l` overwritten. -/
def memWriteHead (m : Mem α) (l : Nat) (v : Option Nat) : Mem α :=
  { m with heads := aset l v m.heads }

theorem getNode_memWriteHead (m : Mem α) (l : Nat) (v : Option Nat) (x : Nat) :
    getNode (memWriteHead m l v) x = getNode m x := rfl

theorem prevOf_memWriteHead (m : Mem α) (l : Nat) (v : Option Nat) (x : Nat) :
    prevOf (memWriteHead m l v) x = prevOf m x := rfl

theorem nextOf_memWriteHead (m : Mem α) (l : Nat) (v : Option Nat) (x : Nat) :
    nextOf (memWriteHead m l v) x = nextOf m x := rfl

theorem countOf_memWriteHead (m : Mem α) (l : Nat) (v : Option Nat) (x : Nat) :
    countOf (memWriteHead m l v) x = countOf m x := rfl

theorem valOf_memWriteHead (m : Mem α) (l : Nat) (v : Option Nat) (x : Nat) :
    valOf (memWriteHead m l v) x = valOf m x := rfl

theorem nkeys_memWriteHead (m : Mem α) (l : Nat) (v : Option Nat) :
    nkeys (memWriteHead m l v) = nkeys m := rfl

theorem dropped_memWriteHead (m : Mem α) (l : Nat) (v : Option Nat) :
    (memWriteHead m l v).dropped = m.dropped := rfl

theorem fresh_memWriteHead (m : Mem α) (l : Nat) (v : Option Nat) :
    (memWriteHead m l v).fresh = m.fresh := rfl

theorem hkeys_memWriteHead (m : Mem α) (l : Nat) (v : Option Nat) :
    hkeys (memWriteHead m l v) = hkeys m := by
  simp [hkeys, memWriteHead, aset_keys]

theorem getHead_memWriteHead_self {m : Mem α} {l : Nat} {w : Option Nat}
    (h : getHead m l = some w) (v : Option Nat) :
    getHead (memWriteHead m l v) l = some v := by
  unfold getHead memWriteHead at *
  rw [alook_aset_self, h]
  rfl

theorem getHead_memWriteHead_ne {m : Mem α} {l l' : Nat} (h : l ≠ l')
    (v : Option Nat) : getHead (memWriteHead m l v) l' = getHead m l' := by
  unfold getHead memWriteHead
  exact alook_aset_ne h v m.heads

theorem writeCell_headCell_eq {m : Mem α} {l : Nat} {w : Option Nat}
    (h : getHead m l = some w) (v : Option Nat) :
    writeCell m (CellId.headCell l) v = some (memWriteHead m l v) := by
  simp [writeCell, h, memWriteHead]

theorem writeCell_nextCell_eq {m : Mem α} {x : Nat} {nd : Node α}
    (h : getNode m x = some nd) (v : Option Nat) :
    writeCell m (CellId.nextCell x) v = some (setNode m x { nd with next := v }) := by
  simp [writeCell, h]

theorem setPrevNext_eq {m : Mem α} {x : Nat} {nd : Node α}
    (h : getNode m x = some nd) (c : Option CellId) :
    setPrevNext m x c = some (setNode m x { nd with prev_next := c }) := by
  simp [setPrevNext, h]

/-- Case analysis helper for optional values. -/
theorem optionCases {γ : Type _} (o : Option γ) : o = none ∨ ∃ x, o = some x := by
  cases o with
  | none => exact Or.inl rfl
  | some x => exact Or.inr ⟨x, rfl⟩

theorem unlink_step_eq {m : Mem α} {a : Nat} {nd : Node α} {p : CellId}
    (hnd : getNode m a = some nd) (hp : nd.prev_next = some p)
    {m2 : Mem α} (hw : writeCell (setNode m a { nd with prev_next := none }) p nd.next = some m2)
    {nd2 : Node α} (h2 : getNode m2 a = some nd2) :
    Node.unlink m a =
      (match nd2.next with
       | none => some m2
       | some nx => setPrevNext m2 nx (some p)) := by
  simp only [Node.unlink, hnd, hp, hw, h2]

theorem alook_isSome_of_mem {β : Type _} {k : Nat} {L : List (Nat × β)}
    (h : k ∈ L.map Prod.fst) : (alook k L).isSome := by
  induction L with
  | nil => simp at h
  | cons e rest ih =>
    obtain ⟨k', v'⟩ := e
    by_cases h2 : k' = k
    · simp [alook, h2]
    · simp only [List.map_cons, List.mem_cons] at h
      rcases h with h | h
      · exact absurd h.symm h2
      · simp [alook, h2, ih h]

theorem getNode_isSome_iff_mem_nkeys (m : Mem α) (x : Nat) :
    (getNode m x).isSome ↔ x ∈ nkeys m := by
  constructor
  · intro h
    obtain ⟨nd, hnd⟩ := Option.isSome_iff_exists.mp h
    exact alook_mem_keys hnd
  · intro h
    exact alook_isSome_of_mem h

theorem writeCell_isSome {m : Mem α} {c : CellId}
    (h : (readCell m c).isSome) (v : Option Nat) :
    ∃ m', writeCell m c v = some m' := by
  cases c with
  | headCell l =>
    obtain ⟨w, hw⟩ := Option.isSome_iff_exists.mp h
    rw [readCell_headCell] at hw
    exact ⟨_, writeCell_headCell_eq hw v⟩
  | nextCell x =>
    obtain ⟨w, hw⟩ := Option.isSome_iff_exists.mp h
    rw [readCell_nextCell] at hw
    obtain ⟨nd, hnd, _⟩ := nextOf_eq_some hw
    exact ⟨_, writeCell_nextCell_eq hnd v⟩

/-- Frame description of a successful cell write. -/
theorem writeCell_facts {m m' : Mem α} {c : CellId} {v : Option Nat}
    (h : writeCell m c v = some m') :
    (∀ x, prevOf m' x = prevOf m x) ∧
    (∀ w, c = CellId.nextCell w → nextOf m' w = some v) ∧
    (∀ x, c ≠ CellId.nextCell x → nextOf m' x = nextOf m x) ∧
    (∀ l', c = CellId.headCell l' → getHead m' l' = some v) ∧
    (∀ l', c ≠ CellId.headCell l' → getHead m' l' = getHead m l') ∧
    (∀ x, c ≠ CellId.nextCell x → getNode m' x = getNode m x) ∧
    hkeys m' = hkeys m ∧ nkeys m' = nkeys m ∧
    m'.dropped = m.dropped ∧ m'.fresh = m.fresh ∧
    (∀ x, countOf m' x = countOf m x) ∧ (∀ x, valOf m' x = valOf m x) := by
  cases c with
  | headCell l =>
    rcases optionCases (getHead m l) with hd | ⟨w, hw⟩
    · rw [writeCell, hd] at h; cases h
    · rw [writeCell_headCell_eq hw] at h
      injection h with h
      subst h
      refine ⟨fun x => rfl, ?_, fun x _ => rfl, ?_, ?_, fun x _ => rfl,
        hkeys_memWriteHead m l v, rfl, rfl, rfl, fun x => rfl, fun x => rfl⟩
      · intro w hc; cases hc
      · intro l' hc
        injection hc with hc
        subst hc
        exact getHead_memWriteHead_self hw v
      · intro l' hc
        exact getHead_memWriteHead_ne (fun he => hc (congrArg CellId.headCell he)) v
  | nextCell y =>
    rcases optionCases (getNode m y) with hd | ⟨nd, hnd⟩
    · rw [writeCell, hd] at h; cases h
    · rw [writeCell_nextCell_eq hnd] at h
      injection h with h
      subst h
      refine ⟨?_, ?_, ?_, ?_, fun l' _ => rfl, ?_, rfl, nkeys_setNode m y _,
        rfl, rfl, ?_, ?_⟩
      · intro x
        by_cases hxy : x = y
        · subst hxy
          rw [prevOf_setNode_self hnd, prevOf, hnd]
          rfl
        · exact prevOf_setNode_ne (fun he => hxy he.symm) _
      · intro w hc
        injection hc with hc
        subst hc
        rw [nextOf_setNode_self hnd]
      · intro x hc
        exact nextOf_setNode_ne (fun he => hc (congrArg CellId.nextCell he)) _
      · intro l' hc; cases hc
      · intro x hc
        exact getNode_setNode_ne _ (fun he => hc (congrArg CellId.nextCell he)) _
      · intro x
        by_cases hxy : x = y
        · subst hxy
          rw [countOf_setNode_self hnd, countOf, hnd]
          rfl
        · exact countOf_setNode_ne (fun he => hxy he.symm) _
      · intro x
        by_cases hxy : x = y
        · subst hxy
          rw [valOf_setNode_self hnd, valOf, hnd]
          rfl
        · exact valOf_setNode_ne (fun he => hxy he.symm) _

/-- Execution of `unlink` on a linked node whose back pointer cell exists
and whose successor, if any, is allocated and distinct from the node
itself, with a full frame description of the resulting heap. -/
theorem unlink_run {m : Mem α} {a : Nat} {nd : Node α} {p : CellId}
    (hnd : getNode m a = some nd) (hp : nd.prev_next = some p)
    (hpa : p ≠ CellId.nextCell a)
    (hba : nd.next ≠ some a)
    (hcell : (readCell m p).isSome)
    (hsucc : ∀ b, nd.next = some b → (getNode m b).isSome) :
    ∃ m', Node.unlink m a = some m' ∧
      getNode m' a = some { nd with prev_next := none } ∧
      (∀ b, nd.next = some b → prevOf m' b = some (some p)) ∧
      (∀ x, x ≠ a → nd.next ≠ some x → prevOf m' x = prevOf m x) ∧
      (∀ w, p = CellId.nextCell w → nextOf m' w = some nd.next) ∧
      (∀ x, p ≠ CellId.nextCell x → nextOf m' x = nextOf m x) ∧
      (∀ l', p = CellId.headCell l' → getHead m' l' = some nd.next) ∧
      (∀ l', p ≠ CellId.headCell l' → getHead m' l' = getHead m l') ∧
      hkeys m' = hkeys m ∧ nkeys m' = nkeys m ∧
      m'.dropped = m.dropped ∧ m'.fresh = m.fresh ∧
      (∀ x, countOf m' x = countOf m x) ∧ (∀ x, valOf m' x = valOf m x) := by
  have hm1a : getNode (setNode m a { nd with prev_next := none }) a
      = some { nd with prev_next := none } := by
    rw [getNode_setNode_self, hnd]; rfl
  have hm1prev : ∀ x, x ≠ a →
      prevOf (setNode m a { nd with prev_next := none }) x = prevOf m x :=
    fun x hx => prevOf_setNode_ne (fun he => hx he.symm) _
  have hm1next : ∀ x,
      nextOf (setNode m a { nd with prev_next := none }) x = nextOf m x := by
    intro x
    by_cases hxa : x = a
    · subst hxa
      rw [nextOf_setNode_self hnd]
      rw [nextOf, hnd]
      rfl
    · exact nextOf_setNode_ne (fun he => hxa he.symm) _
  have hm1count : ∀ x,
      countOf (setNode m a { nd with prev_next := none }) x = countOf m x := by
    intro x
    by_cases hxa : x = a
    · subst hxa
      rw [countOf_setNode_self hnd]
      rw [countOf, hnd]
      rfl
    · exact countOf_setNode_ne (fun he => hxa he.symm) _
  have hm1val : ∀ x,
      valOf (setNode m a { nd with prev_next := none }) x = valOf m x := by
    intro x
    by_cases hxa : x = a
    · subst hxa
      rw [valOf_setNode_self hnd]
      rw [valOf, hnd]
      rfl
    · exact valOf_setNode_ne (fun he => hxa he.symm) _
  have hcell1 : (readCell (setNode m a { nd with prev_next := none }) p).isSome := by
    cases p with
    | headCell l0 => exact hcell
    | nextCell w0 =>
      rw [readCell_nextCell] at hcell ⊢
      rw [hm1next w0]
      exact hcell
  obtain ⟨m2, hw⟩ := writeCell_isSome hcell1 nd.next
  obtain ⟨wf1, wf2, wf3, wf4, wf5, wf6, wfh, wfn, wfd, wff, wfc, wfv⟩ :=
    writeCell_facts hw
  have h2 : getNode m2 a = some { nd with prev_next := none } := by
    rw [wf6 a hpa, hm1a]
  have hEq := unlink_step_eq hnd hp hw h2
  have hm2prev : ∀ x, x ≠ a → prevOf m2 x = prevOf m x :=
    fun x hx => (wf1 x).trans (hm1prev x hx)
  have hm2preva : prevOf m2 a = some none := by
    rw [prevOf, h2]; rfl
  have hm2next : ∀ x, p ≠ CellId.nextCell x → nextOf m2 x = nextOf m x :=
    fun x hx => (wf3 x hx).trans (hm1next x)
  have hm2count : ∀ x, countOf m2 x = countOf m x :=
    fun x => (wfc x).trans (hm1count x)
  have hm2val : ∀ x, valOf m2 x = valOf m x :=
    fun x => (wfv x).trans (hm1val x)
  have hm2hk : hkeys m2 = hkeys m := wfh
  have hm2nk : nkeys m2 = nkeys m := by
    rw [wfn]; exact nkeys_setNode m a _
  have hm2dr : m2.dropped = m.dropped := wfd
  have hm2fr : m2.fresh = m.fresh := wff
  have hm2gh : ∀ l', p ≠ CellId.headCell l' → getHead m2 l' = getHead m l' :=
    fun l' hl' => wf5 l' hl'
  rcases optionCases nd.next with hnx | ⟨b, hnx⟩
  · have hEq2 : Node.unlink m a = some m2 := by
      rw [hEq]
      simp [hnx]
    refine ⟨m2, hEq2, h2, ?_, ?_, ?_, ?_, wf4, hm2gh, hm2hk, hm2nk, hm2dr,
      hm2fr, hm2count, hm2val⟩
    · intro b hb; rw [hnx] at hb; cases hb
    · intro x hx _; exact hm2prev x hx
    · exact wf2
    · exact hm2next
  · have hbne : b ≠ a := by
      intro he
      rw [he] at hnx
      exact hba hnx
    have hballoc : (getNode m2 b).isSome := by
      rw [getNode_isSome_iff_mem_nkeys, hm2nk, ← getNode_isSome_iff_mem_nkeys]
      exact hsucc b hnx
    obtain ⟨ndc, hndc⟩ := Option.isSome_iff_exists.mp hballoc
    have hset := setPrevNext_eq hndc (some p)
    have hEq2 : Node.unlink m a = some
        (setNode m2 b { ndc with prev_next := some p }) := by
      rw [hEq]
      simp [hnx, hset]
    refine ⟨setNode m2 b { ndc with prev_next := some p }, hEq2, ?_, ?_, ?_, ?_,
      ?_, ?_, ?_, ?_, ?_, ?_, ?_, ?_, ?_⟩
    · rw [getNode_setNode_ne _ hbne]
      exact h2
    · intro b' hb'
      rw [hnx] at hb'
      injection hb' with hb'
      subst hb'
      rw [prevOf_setNode_self hndc]
    · intro x hx hxb
      rw [hnx] at hxb
      have hbx : b ≠ x := fun he => hxb (congrArg some he)
      rw [prevOf_setNode_ne hbx]
      exact hm2prev x hx
    · intro w hpw
      by_cases hwb : w = b
      · subst hwb
        have e1 := wf2 w hpw
        rw [nextOf, hndc] at e1
        rw [nextOf_setNode_self hndc]
        exact e1
      · rw [nextOf_setNode_ne (fun he => hwb he.symm)]
        exact wf2 w hpw
    · intro x hx
      by_cases hxb : x = b
      · subst hxb
        have e1 := hm2next x hx
        rw [nextOf, hndc] at e1
        rw [nextOf_setNode_self hndc]
        exact e1
      · rw [nextOf_setNode_ne (fun he => hxb he.symm)]
        exact hm2next x hx
    · intro l' hl'
      exact wf4 l' hl'
    · intro l' hl'
      exact hm2gh l' hl'
    · exact hm2hk
    · rw [nkeys_setNode]
      exact hm2nk
    · exact hm2dr
    · exact hm2fr
    · intro x
      by_cases hxb : x = b
      · subst hxb
        have e1 := hm2count x
        rw [countOf, hndc] at e1
        rw [countOf_setNode_self hndc]
        exact e1
      · rw [countOf_setNode_ne (fun he => hxb he.symm)]
        exact hm2count x
    · intro x
      by_cases hxb : x = b
      · subst hxb
        have e1 := hm2val x
        rw [valOf, hndc] at e1
        rw [valOf_setNode_self hndc]
        exact e1
      · rw [valOf_setNode_ne (fun he => hxb he.symm)]
        exact hm2val x

theorem goodSeg_split_tail {m : Mem α} {l : Nat} :
    ∀ {xs : List Nat} {pred : Option Nat} {cs : List Nat},
    goodSeg m l pred (xs ++ cs) → ∃ pred', goodSeg m l pred' cs
  | [], pred, cs, hg => ⟨pred, hg⟩
  | x :: xs, pred, cs, hg => by
    rw [List.cons_append, goodSeg_cons] at hg
    exact goodSeg_split_tail hg.2.2

theorem goodSeg_cell_of_mem {m : Mem α} {l : Nat} :
    ∀ {pred : Option Nat} {cs : List Nat}, goodSeg m l pred cs →
    ∀ {a : Nat}, a ∈ cs → ∀ {c : CellId}, prevOf m a = some (some c) →
    readCell m c = some (some a)
  | pred, [], _, a, ha, _, _ => absurd ha (List.not_mem_nil a)
  | pred, b :: cs, hg, a, ha, c, hc => by
    rw [goodSeg_cons] at hg
    obtain ⟨h1, h2, h3⟩ := hg
    rcases List.mem_cons.mp ha with rfl | ha
    · rw [hc] at h2
      injection h2 with h2
      injection h2 with h2
      rw [h2]
      exact h1
    · exact goodSeg_cell_of_mem h3 ha hc

/-- Rerouting lemma: after the writes of a successful `unlink` of `a`
(described by the frame facts), any well-formed segment of list `l` that
contained `a` is again well formed with `a` removed. -/
theorem goodSeg_unlink_reroute {m m' : Mem α} {l : Nat} {a : Nat} {nd : Node α}
    {p : CellId} {ys : List Nat}
    (hnd : getNode m a = some nd) (hp : nd.prev_next = some p)
    (hnext : nd.next = ys.head?)
    (hcp : readCell m p = some (some a))
    (Fb : ∀ b, nd.next = some b → prevOf m' b = some (some p))
    (Fo : ∀ x, x ≠ a → nd.next ≠ some x → prevOf m' x = prevOf m x)
    (Fnw : ∀ w, p = CellId.nextCell w → nextOf m' w = some nd.next)
    (Fn : ∀ x, p ≠ CellId.nextCell x → nextOf m' x = nextOf m x)
    (Fhw : ∀ l', p = CellId.headCell l' → getHead m' l' = some nd.next)
    (Fh : ∀ l', p ≠ CellId.headCell l' → getHead m' l' = getHead m l') :
    ∀ (xs : List Nat) (pred : Option Nat),
    (xs ++ a :: ys).Nodup →
    (∀ w, pred = some w → w ∉ xs ++ a :: ys) →
    goodSeg m l pred (xs ++ a :: ys) →
    goodSeg m' l pred (xs ++ ys) := by
  have Fcell : ∀ c, c ≠ p → readCell m' c = readCell m c := by
    intro c hc
    cases c with
    | headCell l'' =>
      rw [readCell_headCell, readCell_headCell]
      exact Fh l'' (fun he => hc he.symm)
    | nextCell w'' =>
      rw [readCell_nextCell, readCell_nextCell]
      exact Fn w'' (fun he => hc he.symm)
  have FcellP : readCell m' p = some nd.next := by
    cases p with
    | headCell l'' => rw [readCell_headCell]; exact Fhw l'' rfl
    | nextCell w'' => rw [readCell_nextCell]; exact Fnw w'' rfl
  have hpm : prevOf m a = some (some p) := by
    simp [prevOf, hnd, hp]
  intro xs
  induction xs with
  | nil =>
    intro pred hnodup hpred hg
    rw [List.nil_append] at hnodup hg ⊢
    rw [goodSeg_cons] at hg
    obtain ⟨h1, h2, h3⟩ := hg
    have hpeq : p = backPtr l pred := by
      rw [hpm] at h2
      injection h2 with h2
      injection h2
    rw [List.nodup_cons] at hnodup
    obtain ⟨hays, hysnd⟩ := hnodup
    cases ys with
    | nil =>
      rw [goodSeg_nil, ← hpeq, FcellP, hnext]
      rfl
    | cons b ys' =>
      rw [List.nodup_cons] at hysnd
      obtain ⟨hbys', hys'nd⟩ := hysnd
      have hab : a ≠ b := fun he => hays (by rw [he]; exact List.mem_cons_self b ys')
      have hnb : nd.next = some b := by rw [hnext]; rfl
      rw [goodSeg_cons]
      refine ⟨?_, ?_, ?_⟩
      · rw [← hpeq, FcellP, hnb]
      · have := Fb b hnb
        rw [this, hpeq]
      · rw [goodSeg_cons] at h3
        refine goodSeg_congr ?_ ?_ ?_ h3.2.2
        · intro x hx
          have hxa : x ≠ a := fun he => hays (by rw [← he]; exact List.mem_cons_of_mem b hx)
          have hxb : nd.next ≠ some x := by
            rw [hnb]
            intro he
            injection he with he
            exact hbys' (he ▸ hx)
          exact Fo x hxa hxb
        · intro x hx
          have hxmem : x ∈ b :: ys' := by
            rcases hx with hx | hx
            · injection hx with hx
              rw [← hx]
              exact List.mem_cons_self b ys'
            · exact List.mem_cons_of_mem b hx
          apply Fn
          rw [hpeq]
          cases pred with
          | none => intro he; cases he
          | some w =>
            intro he
            injection he with he
            exact hpred w rfl (by
              rw [he]
              exact List.mem_cons_of_mem a hxmem)
        · intro he; cases he
  | cons x xs' ih =>
    intro pred hnodup hpred hg
    rw [List.cons_append] at hnodup hg ⊢
    rw [goodSeg_cons] at hg ⊢
    obtain ⟨h1, h2, h3⟩ := hg
    rw [List.nodup_cons] at hnodup
    obtain ⟨hxout, hndrest⟩ := hnodup
    have hxa : x ≠ a := by
      intro he
      exact hxout (by
        rw [he]
        exact List.mem_append_right xs' (List.mem_cons_self a ys))
    have hcne : backPtr l pred ≠ p := by
      intro he
      rw [he, hcp] at h1
      injection h1 with h1
      injection h1 with h1
      exact hxa h1.symm
    refine ⟨?_, ?_, ?_⟩
    · rw [Fcell _ hcne]
      exact h1
    · have hxb : nd.next ≠ some x := by
        rw [hnext]
        cases ys with
        | nil => intro he; cases he
        | cons b ys' =>
          intro he
          injection he with he
          exact hxout (by
            rw [← he]
            exact List.mem_append_right xs' (List.mem_cons_of_mem a
              (List.mem_cons_self b ys')))
      rw [Fo x hxa hxb]
      exact h2
    · refine ih (some x) hndrest ?_ h3
      intro w hw
      injection hw with hw
      rw [← hw]
      exact hxout

theorem goodSeg_next_closed {m : Mem α} {l : Nat} :
    ∀ {pred : Option Nat} {cs : List Nat}, goodSeg m l pred cs →
    ∀ {x : Nat}, x ∈ cs → ∀ {b : Nat}, nextOf m x = some (some b) → b ∈ cs
  | pred, [], _, x, hx, _, _ => absurd hx (List.not_mem_nil x)
  | pred, c :: cs, hg, x, hx, b, hb => by
    rw [goodSeg_cons] at hg
    obtain ⟨h1, h2, h3⟩ := hg
    rcases List.mem_cons.mp hx with rfl | hx
    · have := goodSeg_next_head h3
      rw [hb] at this
      injection this with this
      cases cs with
      | nil => cases this
      | cons d cs' =>
        injection this with this
        rw [this]
        exact List.mem_cons_of_mem _ (List.mem_cons_self d cs')
    · exact List.mem_cons_of_mem _ (goodSeg_next_closed h3 hx hb)

/-- A well-formed nodup segment starting at the head computes as the
chain of the list. -/
theorem chain_eq_of_goodSeg {m : Mem α} {l : Nat} {cs : List Nat}
    (hg : goodSeg m l none cs) (hnodup : cs.Nodup) :
    chain m cs.head? = some cs ∧ getHead m l = some cs.head? ∧
      listChain m l = cs := by
  have hsub := goodSeg_subset_nkeys hg
  have hlen : cs.length ≤ m.nodes.length := by
    have h1 : List.Subperm cs (nkeys m) :=
      List.Nodup.subperm hnodup fun x hx => hsub x hx
    have h2 := h1.length_le
    simpa [nkeys] using h2
  have hch : chain m cs.head? = some cs := goodSeg_chainF hg hlen
  have hh := goodSeg_getHead hg
  exact ⟨hch, hh, by simp [listChain, hh, hch]⟩

theorem listChain_eq_of {m : Mem α} {l : Nat} {v : Option Nat} {cs : List Nat}
    (hh : getHead m l = some v) (hc : chain m v = some cs) :
    listChain m l = cs := by
  simp [listChain, hh, hc]

theorem listChain_of_not_mem {m : Mem α} {l : Nat} (h : l ∉ hkeys m) :
    listChain m l = [] := by
  rw [listChain, getHead, alook_eq_none_of_not_mem h]

/-- Entry membership in a nodup association list coincides with lookup. -/
theorem getHead_of_mem_heads {m : Mem α} (hk : (hkeys m).Nodup)
    {q : Nat × Option Nat} (hq : q ∈ m.heads) : getHead m q.1 = some q.2 :=
  alook_of_mem hk hq

theorem getNode_of_mem_nodes {m : Mem α} (hk : (nkeys m).Nodup)
    {e : Nat × Node α} (he : e ∈ m.nodes) : getNode m e.1 = some e.2 :=
  alook_of_mem hk he

theorem chainGood_intro {m : Mem α} {l : Nat} {v : Option Nat} {cs : List Nat}
    (h1 : chain m v = some cs) (h2 : goodSeg m l none cs) : chainGood m l v := by
  unfold chainGood
  rw [h1]
  exact h2

theorem chainGood_elim {m : Mem α} {l : Nat} {v : Option Nat}
    (h : chainGood m l v) : ∃ cs, chain m v = some cs ∧ goodSeg m l none cs := by
  unfold chainGood at h
  cases h2 : chain m v with
  | none => rw [h2] at h; cases h
  | some cs =>
    rw [h2] at h
    exact ⟨cs, rfl, h⟩

theorem listChain_entry {m : Mem α} (hk : (hkeys m).Nodup)
    {q : Nat × Option Nat} (hq : q ∈ m.heads) :
    listChain m q.1 = (chain m q.2).getD [] := by
  rw [listChain, getHead_of_mem_heads hk hq]

/-- Eliminate well-formedness into per-list chain facts. -/
theorem WF_chain {m : Mem α} (hWF : WF m) {l : Nat} {v : Option Nat}
    (hh : getHead m l = some v) :
    chain m v = some (listChain m l) ∧ goodSeg m l none (listChain m l) ∧
      (listChain m l).Nodup ∧ v = (listChain m l).head? := by
  obtain ⟨Whk, _, _, _, Wcg, Wcn, _, _, _⟩ := hWF
  have hq : (l, v) ∈ m.heads := mem_of_alook hh
  obtain ⟨cs, hchain, hg⟩ := chainGood_elim (Wcg _ hq)
  have hlc : listChain m l = cs := listChain_eq_of hh hchain
  have hnodup : cs.Nodup := by
    have := Wcn _ hq
    rw [hchain] at this
    simpa using this
  rw [hlc]
  refine ⟨hchain, hg, hnodup, ?_⟩
  have := goodSeg_getHead hg
  rw [hh] at this
  injection this

theorem WF_listChain_nodup {m : Mem α} (hWF : WF m) (l : Nat) :
    (listChain m l).Nodup := by
  cases hh : getHead m l with
  | none => rw [listChain, hh]; exact List.nodup_nil
  | some v => exact (WF_chain hWF hh).2.2.1

theorem WF_listChain_disjoint {m : Mem α} (hWF : WF m) {l1 l2 : Nat}
    (hne : l1 ≠ l2) : ∀ x, x ∈ listChain m l1 → x ∉ listChain m l2 := by
  intro x hx1 hx2
  obtain ⟨Whk, _, _, _, _, _, Wdisj, _, _⟩ := hWF
  cases hh1 : getHead m l1 with
  | none => rw [listChain, hh1] at hx1; cases hx1
  | some v1 =>
    cases hh2 : getHead m l2 with
    | none => rw [listChain, hh2] at hx2; cases hx2
    | some v2 =>
      have hq1 : (l1, v1) ∈ m.heads := mem_of_alook hh1
      have hq2 : (l2, v2) ∈ m.heads := mem_of_alook hh2
      refine Wdisj (l1, v1) hq1 (l2, v2) hq2 hne x ?_ ?_
      · rw [← listChain_entry Whk hq1]
        exact hx1
      · rw [← listChain_entry Whk hq2]
        exact hx2

theorem WF_unlinked {m : Mem α} (hWF : WF m) {x : Nat} {ndx : Node α}
    (h : getNode m x = some ndx)
    (hnot : ∀ l, x ∉ listChain m l) : ndx.prev_next = none := by
  obtain ⟨Whk, _, _, _, _, _, _, Wunl, _⟩ := hWF
  refine Wunl (x, ndx) (mem_of_alook h) ?_
  intro q hq
  rw [← listChain_entry Whk hq]
  exact hnot q.1

theorem WF_linked_mem {m : Mem α} (hWF : WF m) {x : Nat} {ndx : Node α}
    (h : getNode m x = some ndx) {c : CellId} (hc : ndx.prev_next = some c) :
    ∃ l, x ∈ listChain m l := by
  by_contra hno
  push_neg at hno
  have := WF_unlinked hWF h hno
  rw [hc] at this
  cases this

theorem WF_count {m : Mem α} (hWF : WF m) {x : Nat} {ndx : Node α}
    (h : getNode m x = some ndx) : 1 ≤ ndx.strong_count := by
  obtain ⟨_, _, _, _, _, _, _, _, Wcnt⟩ := hWF
  exact Wcnt (x, ndx) (mem_of_alook h)

/-- Rebuild well-formedness from per-list chain facts. -/
theorem WF_intro {m : Mem α}
    (hk : (hkeys m).Nodup) (hn : (nkeys m).Nodup)
    (hlt1 : ∀ k ∈ hkeys m, k < m.fresh) (hlt2 : ∀ k ∈ nkeys m, k < m.fresh)
    (hch : ∀ q ∈ m.heads, ∃ cs, goodSeg m q.1 none cs ∧ cs.Nodup ∧ q.2 = cs.head?)
    (hdisj : ∀ q1 ∈ m.heads, ∀ q2 ∈ m.heads, q1.1 ≠ q2.1 →
      ∀ x, x ∈ listChain m q1.1 → x ∉ listChain m q2.1)
    (hunl : ∀ e ∈ m.nodes, (∀ l, e.1 ∉ listChain m l) → e.2.prev_next = none)
    (hcnt : ∀ e ∈ m.nodes, 1 ≤ e.2.strong_count) : WF m := by
  have hch2 : ∀ q ∈ m.heads, chain m q.2 = some (listChain m q.1) ∧
      goodSeg m q.1 none (listChain m q.1) := by
    intro q hq
    obtain ⟨cs, hg, hnodup, hv⟩ := hch q hq
    obtain ⟨hc1, _, hc3⟩ := chain_eq_of_goodSeg hg hnodup
    have hlc : listChain m q.1 = cs := by
      simp [listChain, getHead_of_mem_heads hk hq, hv, hc1]
    rw [hlc, hv]
    exact ⟨hc1, hg⟩
  refine ⟨hk, hn, hlt1, hlt2, ?_, ?_, ?_, ?_, hcnt⟩
  · intro q hq
    exact chainGood_intro (hch2 q hq).1 (hch2 q hq).2
  · intro q hq
    rw [(hch2 q hq).1]
    obtain ⟨cs, hg, hnodup, hv⟩ := hch q hq
    have : listChain m q.1 = cs := by
      simp [listChain, getHead_of_mem_heads hk hq, hv,
        (chain_eq_of_goodSeg hg hnodup).1]
    simpa [this] using hnodup
  · intro q1 hq1 q2 hq2 hne x hx1
    rw [← listChain_entry hk hq1] at hx1
    rw [← listChain_entry hk hq2]
    exact hdisj q1 hq1 q2 hq2 hne x hx1
  · intro e he hnot
    refine hunl e he ?_
    intro l
    by_cases hmem : l ∈ hkeys m
    · obtain ⟨v, hv⟩ := Option.isSome_iff_exists.mp (alook_isSome_of_mem hmem)
      have hq : (l, v) ∈ m.heads := mem_of_alook hv
      rw [listChain_entry hk hq]
      exact hnot (l, v) hq
    · rw [listChain_of_not_mem hmem]
      exact List.not_mem_nil e.1

/-- Master lemma: unlinking a linked node under well-formedness succeeds,
preserves well-formedness, removes exactly that node from its list's
chain and leaves every other observable component unchanged. -/
theorem unlink_master {m : Mem α} (hWF : WF m) {a : Nat} {nd : Node α}
    (hnd : getNode m a = some nd) {p : CellId} (hp : nd.prev_next = some p) :
    ∃ m' l0 xs ys, Node.unlink m a = some m' ∧ WF m' ∧
      l0 ∈ hkeys m ∧
      listChain m l0 = xs ++ a :: ys ∧
      listChain m' l0 = xs ++ ys ∧
      a ∉ xs ∧ a ∉ ys ∧
      (∀ l', l' ≠ l0 → listChain m' l' = listChain m l') ∧
      getNode m' a = some { nd with prev_next := none } ∧
      readCell m' p = some nd.next ∧
      (∀ b, nd.next = some b → prevOf m' b = some (some p)) ∧
      hkeys m' = hkeys m ∧ nkeys m' = nkeys m ∧
      m'.dropped = m.dropped ∧ m'.fresh = m.fresh ∧
      (∀ x, countOf m' x = countOf m x) ∧ (∀ x, valOf m' x = valOf m x) := by
  obtain ⟨l0, hal0⟩ := WF_linked_mem hWF hnd hp
  have hh0e : ∃ v0, getHead m l0 = some v0 := by
    cases hh : getHead m l0 with
    | none => rw [listChain, hh] at hal0; cases hal0
    | some v0 => exact ⟨v0, rfl⟩
  obtain ⟨v0, hh0⟩ := hh0e
  obtain ⟨hch0, hg0, hnd0, hv0⟩ := WF_chain hWF hh0
  obtain ⟨xs, ys, hcs⟩ := List.append_of_mem hal0
  rw [hcs] at hch0 hg0 hnd0 hv0
  have hl0mem : l0 ∈ hkeys m := getHead_mem_hkeys hh0
  have hnodapp := List.nodup_append.mp hnd0
  have haxs : a ∉ xs := fun hx => hnodapp.2.2 hx (List.mem_cons_self a ys)
  have hays : a ∉ ys := by
    have h2 := hnodapp.2.1
    rw [List.nodup_cons] at h2
    exact h2.1
  have hnext : nd.next = ys.head? := by
    obtain ⟨pred', hseg⟩ := goodSeg_split_tail hg0
    rw [goodSeg_cons] at hseg
    have h2 := goodSeg_next_head hseg.2.2
    rw [nextOf, hnd] at h2
    simpa using h2
  have hpm : prevOf m a = some (some p) := by simp [prevOf, hnd, hp]
  have haq : a ∈ xs ++ a :: ys := List.mem_append_right xs (List.mem_cons_self a ys)
  have hcp : readCell m p = some (some a) := goodSeg_cell_of_mem hg0 haq hpm
  have hba : nd.next ≠ some a := by
    intro he
    rw [hnext] at he
    cases hy : ys with
    | nil => rw [hy] at he; cases he
    | cons b ys' =>
      rw [hy] at he
      injection he with he
      exact hays (by rw [hy, he]; exact List.mem_cons_self _ _)
  have hpa : p ≠ CellId.nextCell a := by
    intro he
    rw [he, readCell_nextCell] at hcp
    rw [nextOf, hnd] at hcp
    simp at hcp
    exact hba hcp
  have hsucc : ∀ b, nd.next = some b → (getNode m b).isSome := by
    intro b hb
    rw [hnext] at hb
    have hbys : b ∈ ys := by
      cases hy : ys with
      | nil => rw [hy] at hb; cases hb
      | cons c ys' =>
        rw [hy] at hb
        injection hb with hb
        rw [hb]
        exact List.mem_cons_self _ _
    obtain ⟨ndb, hndb⟩ := goodSeg_alloc hg0 b
      (List.mem_append_right xs (List.mem_cons_of_mem a hbys))
    rw [hndb]
    rfl
  obtain ⟨m', hrun, F1, F2, F3, F4, F5, F6, F7, Fhk, Fnk, Fdr, Ffr, Fcnt, Fval⟩ :=
    unlink_run hnd hp hpa hba (by rw [hcp]; rfl) hsucc
  have hgnew : goodSeg m' l0 none (xs ++ ys) :=
    goodSeg_unlink_reroute hnd hp hnext hcp F2 F3 F4 F5 F6 F7 xs none hnd0
      (fun w hw => by cases hw) hg0
  have hnodnew : (xs ++ ys).Nodup :=
    hnd0.sublist ((List.sublist_cons_self a ys).append_left xs)
  obtain ⟨hch0', hh0', hlc0'⟩ := chain_eq_of_goodSeg hgnew hnodnew
  have hOther : ∀ l' v', l' ≠ l0 → getHead m l' = some v' →
      getHead m' l' = some v' ∧ chain m' v' = some (listChain m l') ∧
      goodSeg m' l' none (listChain m l') := by
    intro l' v' hne hh'
    obtain ⟨hch', hg', hnodup', hv'⟩ := WF_chain hWF hh'
    have hdisj : ∀ x, x ∈ listChain m l0 → x ∉ listChain m l' :=
      WF_listChain_disjoint hWF (fun he => hne he.symm)
    have hga : ∀ x, x ∈ listChain m l' → x ≠ a := by
      intro x hx he
      exact hdisj a (by rw [hcs]; exact haq) (he ▸ hx)
    have hgm' : goodSeg m' l' none (listChain m l') := by
      refine goodSeg_congr ?_ ?_ ?_ hg'
      · intro x hx
        refine F3 x (hga x hx) ?_
        rw [hnext]
        cases hy : ys with
        | nil => simp
        | cons b ys' =>
          intro he
          injection he with he
          refine hdisj b ?_ (he ▸ hx)
          rw [hcs, hy]
          exact List.mem_append_right xs
            (List.mem_cons_of_mem a (List.mem_cons_self _ _))
      · intro x hx
        rcases hx with hx | hx
        · cases hx
        · refine F5 x ?_
          intro he
          rw [he, readCell_nextCell] at hcp
          have hmem := goodSeg_next_closed hg' hx hcp
          exact hga a hmem rfl
      · intro _
        refine F7 l' ?_
        intro he
        rw [he, readCell_headCell, hh'] at hcp
        have h1 : v' = some a := by injection hcp
        rw [h1] at hv'
        cases hlc' : listChain m l' with
        | nil => rw [hlc'] at hv'; cases hv'
        | cons c cs' =>
          rw [hlc'] at hv'
          injection hv' with hv'
          exact hga c (by rw [hlc']; exact List.mem_cons_self _ _) hv'.symm
    have hch'' := chain_eq_of_goodSeg hgm' hnodup'
    refine ⟨?_, ?_, hgm'⟩
    · rw [hv']
      exact hch''.2.1
    · rw [hv']
      exact hch''.1
  have hOtherLC : ∀ l', l' ≠ l0 → listChain m' l' = listChain m l' := by
    intro l' hne
    by_cases hmem' : l' ∈ hkeys m
    · obtain ⟨v', hv'⟩ := Option.isSome_iff_exists.mp (alook_isSome_of_mem hmem')
      obtain ⟨ha1, ha2, _⟩ := hOther l' v' hne hv'
      exact listChain_eq_of ha1 ha2
    · rw [listChain_of_not_mem hmem',
        listChain_of_not_mem (by rw [Fhk]; exact hmem')]
  have hWF' : WF m' := by
    refine WF_intro (by rw [Fhk]; exact hWF.1) (by rw [Fnk]; exact hWF.2.1)
      (by rw [Fhk, Ffr]; exact hWF.2.2.1) (by rw [Fnk, Ffr]; exact hWF.2.2.2.1)
      ?_ ?_ ?_ ?_
    · intro q' hq'
      obtain ⟨l', v'⟩ := q'
      have hh' : getHead m' l' = some v' :=
        getHead_of_mem_heads (by rw [Fhk]; exact hWF.1) hq'
      by_cases hne : l' = l0
      · subst hne
        have hveq : v' = (xs ++ ys).head? := by
          rw [hh0'] at hh'
          injection hh' with hv2
          exact hv2.symm
        exact ⟨xs ++ ys, hgnew, hnodnew, hveq⟩
      · have hmem' : l' ∈ hkeys m := by
          rw [← Fhk]
          exact getHead_mem_hkeys hh'
        obtain ⟨v'', hv''⟩ := Option.isSome_iff_exists.mp (alook_isSome_of_mem hmem')
        obtain ⟨ha1, ha2, ha3⟩ := hOther l' v'' hne hv''
        have hveq : v' = v'' := by
          rw [hh'] at ha1
          injection ha1
        subst hveq
        exact ⟨listChain m l', ha3, WF_listChain_nodup hWF l',
          (WF_chain hWF hv'').2.2.2⟩
    · intro q1 hq1 q2 hq2 hne x hx1
      have hsubLC : ∀ l' x', x' ∈ listChain m' l' → x' ∈ listChain m l' := by
        intro l' x' hx'
        by_cases he : l' = l0
        · subst he
          rw [hlc0'] at hx'
          rw [hcs]
          rcases List.mem_append.mp hx' with h | h
          · exact List.mem_append_left _ h
          · exact List.mem_append_right _ (List.mem_cons_of_mem a h)
        · rw [hOtherLC l' he] at hx'
          exact hx'
      intro hx2
      exact WF_listChain_disjoint hWF hne x (hsubLC _ _ hx1) (hsubLC _ _ hx2)
    · intro e he hnot
      have hgE : getNode m' e.1 = some e.2 :=
        getNode_of_mem_nodes (by rw [Fnk]; exact hWF.2.1) he
      by_cases hea : e.1 = a
      · rw [hea, F1] at hgE
        injection hgE with hgE
        rw [← hgE]
      · have hnb : nd.next ≠ some e.1 := by
          intro he2
          rw [hnext] at he2
          have hey : e.1 ∈ ys := by
            cases hy : ys with
            | nil => rw [hy] at he2; cases he2
            | cons c ys' =>
              rw [hy] at he2
              injection he2 with he2
              rw [he2]
              exact List.mem_cons_self _ _
          exact hnot l0 (by rw [hlc0']; exact List.mem_append_right xs hey)
        have hprev := F3 e.1 hea hnb
        have hmemN : e.1 ∈ nkeys m := by
          rw [← Fnk]
          exact getNode_mem_nkeys hgE
        obtain ⟨ndx, hndx⟩ := Option.isSome_iff_exists.mp (alook_isSome_of_mem hmemN)
        have hnotold : ∀ l, e.1 ∉ listChain m l := by
          intro l hl
          by_cases hel : l = l0
          · subst hel
            rw [hcs] at hl
            rcases List.mem_append.mp hl with h | h
            · exact hnot l (by rw [hlc0']; exact List.mem_append_left _ h)
            · rcases List.mem_cons.mp h with h | h
              · exact hea h
              · exact hnot l (by rw [hlc0']; exact List.mem_append_right _ h)
          · exact hnot l (by rw [hOtherLC l hel]; exact hl)
        have hgx : getNode m e.1 = some ndx := hndx
        have hold := WF_unlinked hWF hgx hnotold
        have hpn : prevOf m' e.1 = some none := by
          rw [hprev]
          simp [prevOf, hgx, hold]
        rw [prevOf, hgE] at hpn
        simpa using hpn
    · intro e he
      have hgE : getNode m' e.1 = some e.2 :=
        getNode_of_mem_nodes (by rw [Fnk]; exact hWF.2.1) he
      have hmemN : e.1 ∈ nkeys m := by
        rw [← Fnk]
        exact getNode_mem_nkeys hgE
      obtain ⟨ndx, hndx⟩ := Option.isSome_iff_exists.mp (alook_isSome_of_mem hmemN)
      have hgx : getNode m e.1 = some ndx := hndx
      have hc := Fcnt e.1
      rw [countOf, countOf, hgE, hgx] at hc
      simp at hc
      rw [hc]
      exact WF_count hWF hgx
  have hcellw : readCell m' p = some nd.next := by
    cases p with
    | headCell l1 => rw [readCell_headCell]; exact F6 l1 rfl
    | nextCell w1 => rw [readCell_nextCell]; exact F4 w1 rfl
  exact ⟨m', l0, xs, ys, hrun, hWF', hl0mem, hcs, hlc0', haxs, hays, hOtherLC,
    F1, hcellw, F2, Fhk, Fnk, Fdr, Ffr, Fcnt, Fval⟩

theorem unlink_noop {m : Mem α} {a : Nat} {nd : Node α}
    (hnd : getNode m a = some nd) (hp : nd.prev_next = none) :
    Node.unlink m a = some m := by
  simp [Node.unlink, hnd, hp]

theorem goodSeg_prev_some {m : Mem α} {l : Nat} :
    ∀ {pred : Option Nat} {cs : List Nat}, goodSeg m l pred cs →
    ∀ x ∈ cs, ∃ c, prevOf m x = some (some c)
  | _, [], _, x, hx => absurd hx (List.not_mem_nil x)
  | pred, c0 :: cs, hg, x, hx => by
    rw [goodSeg_cons] at hg
    rcases List.mem_cons.mp hx with rfl | hx
    · exact ⟨backPtr l pred, hg.2.1⟩
    · exact goodSeg_prev_some hg.2.2 x hx

theorem unlinked_not_in_chain {m : Mem α} (hWF : WF m) {a : Nat} {nd : Node α}
    (hnd : getNode m a = some nd) (hp : nd.prev_next = none) :
    ∀ l, a ∉ listChain m l := by
  intro l hl
  have hhe : ∃ v, getHead m l = some v := by
    cases hh : getHead m l with
    | none => rw [listChain, hh] at hl; cases hl
    | some v => exact ⟨v, rfl⟩
  obtain ⟨v, hh⟩ := hhe
  obtain ⟨_, hg, _, _⟩ := WF_chain hWF hh
  obtain ⟨c, hc⟩ := goodSeg_prev_some hg a hl
  rw [prevOf, hnd] at hc
  simp [hp] at hc

theorem split_unique {a : Nat} : ∀ {xs xs' ys ys' : List Nat},
    xs ++ a :: ys = xs' ++ a :: ys' → a ∉ xs → a ∉ xs' →
    xs = xs' ∧ ys = ys'
  | [], [], ys, ys', h, _, _ => by
    simp at h
    exact ⟨rfl, h⟩
  | [], x' :: xs', ys, ys', h, h1, h2 => by
    simp at h
    exact absurd (by rw [h.1]; exact List.mem_cons_self _ _) h2
  | x :: xs, [], ys, ys', h, h1, h2 => by
    simp at h
    exact absurd (by rw [h.1]; exact List.mem_cons_self _ _) h1
  | x :: xs, x' :: xs', ys, ys', h, h1, h2 => by
    rw [List.cons_append, List.cons_append] at h
    injection h with hx h
    have h1' : a ∉ xs := fun hc => h1 (List.mem_cons_of_mem x hc)
    have h2' : a ∉ xs' := fun hc => h2 (List.mem_cons_of_mem x' hc)
    obtain ⟨e1, e2⟩ := split_unique h h1' h2'
    exact ⟨by rw [hx, e1], e2⟩

/-- Total specification of `detach` (`unlink`) under well-formedness:
it succeeds, preserves well-formedness, leaves the node allocated with
only `prev_next` cleared, removes the node from every chain (other chains
being untouched), and changes no count, value, key, or the drop log.
A second `unlink` on the resulting heap is a no-op. -/
theorem detach_total {m : Mem α} (hWF : WF m) {a : Nat} {nd : Node α}
    (hnd : getNode m a = some nd) :
    ∃ m', Node.unlink m a = some m' ∧ WF m' ∧
      getNode m' a = some { nd with prev_next := none } ∧
      (∀ l, a ∉ listChain m' l) ∧
      (∀ l, a ∉ listChain m l → listChain m' l = listChain m l) ∧
      (∀ l xs ys, listChain m l = xs ++ a :: ys → a ∉ xs → a ∉ ys →
        listChain m' l = xs ++ ys) ∧
      hkeys m' = hkeys m ∧ nkeys m' = nkeys m ∧
      m'.dropped = m.dropped ∧ m'.fresh = m.fresh ∧
      (∀ x, countOf m' x = countOf m x) ∧ (∀ x, valOf m' x = valOf m x) ∧
      Node.unlink m' a = some m' := by
  rcases optionCases nd.prev_next with hp | ⟨p, hp⟩
  · have hnoop := unlink_noop hnd hp
    have heta : ({ nd with prev_next := none } : Node α) = nd := by
      rw [← hp]
    have hnotin := unlinked_not_in_chain hWF hnd hp
    refine ⟨m, hnoop, hWF, by rw [heta]; exact hnd, hnotin,
      fun l _ => rfl, ?_, rfl, rfl, rfl, rfl, fun x => rfl, fun x => rfl,
      hnoop⟩
    intro l xs ys hl _ _
    exact absurd (by
      rw [hl]
      exact List.mem_append_right xs (List.mem_cons_self a ys)) (hnotin l)
  · obtain ⟨m', l0, xs0, ys0, hrun, hWF', hl0mem, hlc0, hlc0', haxs0, hays0,
      hOtherLC, F1, Fcw, F2, Fhk, Fnk, Fdr, Ffr, Fcnt, Fval⟩ :=
      unlink_master hWF hnd hp
    have hnotin' : ∀ l, a ∉ listChain m' l := by
      intro l hl
      by_cases hel : l = l0
      · subst hel
        rw [hlc0'] at hl
        rcases List.mem_append.mp hl with h | h
        · exact haxs0 h
        · exact hays0 h
      · rw [hOtherLC l hel] at hl
        exact @WF_listChain_disjoint _ _ hWF l0 l
          (fun he => hel he.symm) a
          (by rw [hlc0]; exact List.mem_append_right xs0 (List.mem_cons_self a ys0))
          hl
    refine ⟨m', hrun, hWF', F1, hnotin', ?_, ?_, Fhk, Fnk, Fdr, Ffr, Fcnt, Fval, ?_⟩
    · intro l hl
      have hel : l ≠ l0 := by
        intro he
        rw [he, hlc0] at hl
        exact hl (List.mem_append_right xs0 (List.mem_cons_self a ys0))
      exact hOtherLC l hel
    · intro l xs ys hl hxs hys
      have hel : l = l0 := by
        by_contra hel
        exact @WF_listChain_disjoint _ _ hWF l l0 hel a
          (by rw [hl]; exact List.mem_append_right xs (List.mem_cons_self a ys))
          (by rw [hlc0]; exact List.mem_append_right xs0 (List.mem_cons_self a ys0))
      subst hel
      rw [hl] at hlc0
      obtain ⟨e1, e2⟩ := split_unique hlc0 hxs haxs0
      rw [hlc0', ← e1, ← e2]
    · exact unlink_noop F1 rfl

/-- Claim C2, amended: for every allocated node on a well-formed heap,
`unlink()` follows the algorithm of the source: if `prev_next` is unset it
is a no-op; otherwise it reads and clears `prev_next` (call it `p`), reads
`next` WITHOUT clearing it (the node's own `next` keeps its old value),
writes the old `next` into the cell `p` pointed at, and redirects the
successor's `prev_next` to `p`; as a postcondition the unlinked node's
`prev_next` is cleared (its `next` is not), which alone makes a second
`unlink()` on the same node a safe no-op. -/
theorem c2_unlink_follows_amended_algorithm {m : Mem α} (hWF : WF m)
    {a : Nat} {nd : Node α} (hnd : getNode m a = some nd) :
    (nd.prev_next = none → Node.unlink m a = some m) ∧
    (∀ p, nd.prev_next = some p → ∃ m',
      Node.unlink m a = some m' ∧
      prevOf m' a = some none ∧
      nextOf m' a = some nd.next ∧
      readCell m' p = some nd.next ∧
      (∀ b, nd.next = some b → prevOf m' b = some (some p)) ∧
      Node.unlink m' a = some m') := by
  refine ⟨fun hp => unlink_noop hnd hp, ?_⟩
  intro p hp
  obtain ⟨m', l0, xs0, ys0, hrun, hWF', _, _, _, _, _, _,
    F1, Fcw, F2, _, _, _, _, _, _⟩ := unlink_master hWF hnd hp
  refine ⟨m', hrun, ?_, ?_, Fcw, F2, unlink_noop F1 rfl⟩
  · simp [prevOf, F1]
  · simp [nextOf, F1]

/-- Record held by node 2 in the heap `memL2`. -/
def nodeC2 : Node Nat :=
  { value := 20, strong_count := 1, prev_next := some (CellId.headCell 0),
    next := some 1 }

/-- Witness for C2's amended theorem at a concrete heap: two pushed
values, unlinking the first node (address 2) of list 0. -/
theorem c2_unlink_follows_amended_algorithm_witness :
    (nodeC2.prev_next = none → Node.unlink memL2 2 = some memL2) ∧
    (∀ p, nodeC2.prev_next = some p → ∃ m',
      Node.unlink memL2 2 = some m' ∧
      prevOf m' 2 = some none ∧
      nextOf m' 2 = some nodeC2.next ∧
      readCell m' p = some nodeC2.next ∧
      (∀ b, nodeC2.next = some b → prevOf m' b = some (some p)) ∧
      Node.unlink m' 2 = some m') :=
  c2_unlink_follows_amended_algorithm (by decide)
    (show getNode memL2 2 = some nodeC2 by decide)

/-- Claim C9: on a well-formed heap, `detach` never fails on a live
handle and is idempotent: the first call succeeds, the second call
returns the very same heap; the node stays allocated and unlinked
(`prev_next` cleared), and no strong count, no stored value, no node
allocation and no drop happens in either call. -/
theorem c9_detach_idempotent {m : Mem α} (hWF : WF m) {a : Nat}
    {nd : Node α} (hnd : getNode m a = some nd) :
    ∃ m', Handle.detach m a = some m' ∧ Handle.detach m' a = some m' ∧
      prevOf m' a = some none ∧
      (∀ l, a ∉ listChain m' l) ∧
      nkeys m' = nkeys m ∧ m'.dropped = m.dropped ∧
      (∀ x, countOf m' x = countOf m x) ∧ (∀ x, valOf m' x = valOf m x) := by
  obtain ⟨m', h1, _, F1, hnotin, _, _, _, hnk, hdr, _, hcnt, hval, h2⟩ :=
    detach_total hWF hnd
  exact ⟨m', h1, h2, by simp [prevOf, F1], hnotin, hnk, hdr, hcnt, hval⟩

/-- Witness for C9 at a concrete heap: detaching the only handle of a
one-element list, twice. -/
theorem c9_detach_idempotent_witness :
    ∃ m', Handle.detach memL1 1 = some m' ∧ Handle.detach m' 1 = some m' ∧
      prevOf m' 1 = some none ∧
      (∀ l, 1 ∉ listChain m' l) ∧
      nkeys m' = nkeys memL1 ∧ m'.dropped = memL1.dropped ∧
      (∀ x, countOf m' x = countOf memL1 x) ∧
      (∀ x, valOf m' x = valOf memL1 x) :=
  c9_detach_idempotent (by decide)
    (show getNode memL1 1 = some
      { value := 10, strong_count := 1,
        prev_next := some (CellId.headCell 0), next := none } by decide)

/-- Heap with node `a` deallocated and the drop log replaced by `dr`. -/
def memRemove (m : Mem α) (a : Nat) (dr : List α) : Mem α :=
  { heads := m.heads, nodes := adel a m.nodes, dropped := dr, fresh := m.fresh }

/-- Removing an unlinked node from a well-formed heap (with an arbitrary
drop log) preserves well-formedness and every chain. -/
theorem remove_unlinked {m : Mem α} (hWF : WF m) {a : Nat} {nd : Node α}
    (hnd : getNode m a = some nd)
    (hnotin : ∀ l, a ∉ listChain m l) (dr : List α) :
    WF (memRemove m a dr) ∧
    (∀ l, listChain (memRemove m a dr) l = listChain m l) := by
  have hgetM : ∀ x, x ≠ a → getNode (memRemove m a dr) x = getNode m x := by
    intro x hx
    show alook x (adel a m.nodes) = alook x m.nodes
    exact alook_adel_ne hx m.nodes
  have hheadM : ∀ l, getHead (memRemove m a dr) l = getHead m l := fun l => rfl
  have hLC : ∀ l, listChain (memRemove m a dr) l = listChain m l := by
    intro l
    cases hh : getHead m l with
    | none =>
      rw [listChain, listChain, hheadM, hh]
    | some v =>
      obtain ⟨hch, hg, hnodup, hv⟩ := WF_chain hWF hh
      have hgood : goodSeg (memRemove m a dr) l none (listChain m l) := by
        refine goodSeg_congr ?_ ?_ ?_ hg
        · intro x hx
          have hxa : x ≠ a := fun he => hnotin l (he ▸ hx)
          rw [prevOf, prevOf, hgetM x hxa]
        · intro x hx
          rcases hx with hx | hx
          · cases hx
          · have hxa : x ≠ a := fun he => hnotin l (he ▸ hx)
            rw [nextOf, nextOf, hgetM x hxa]
        · intro _
          exact hheadM l
      obtain ⟨hch', hh', hlc'⟩ :=
        chain_eq_of_goodSeg hgood (WF_listChain_nodup hWF l)
      rw [hlc']
  have hnkM : ∀ k, k ∈ nkeys (memRemove m a dr) → k ∈ nkeys m := by
    intro k hk
    have hsb : (nkeys (memRemove m a dr)).Sublist (nkeys m) :=
      (adel_sublist a m.nodes).map Prod.fst
    exact hsb.mem hk
  refine ⟨?_, hLC⟩
  refine WF_intro hWF.1 ((adel_sublist a m.nodes).map Prod.fst |>.nodup hWF.2.1)
    hWF.2.2.1 (fun k hk => hWF.2.2.2.1 k (hnkM k hk)) ?_ ?_ ?_ ?_
  · intro q hq
    have hh : getHead m q.1 = some q.2 := getHead_of_mem_heads hWF.1 hq
    obtain ⟨hch, hg, hnodup, hv⟩ := WF_chain hWF hh
    refine ⟨listChain m q.1, ?_, hnodup, hv⟩
    refine goodSeg_congr ?_ ?_ ?_ hg
    · intro x hx
      have hxa : x ≠ a := fun he => hnotin q.1 (he ▸ hx)
      rw [prevOf, prevOf, hgetM x hxa]
    · intro x hx
      rcases hx with hx | hx
      · cases hx
      · have hxa : x ≠ a := fun he => hnotin q.1 (he ▸ hx)
        rw [nextOf, nextOf, hgetM x hxa]
    · intro _
      exact hheadM q.1
  · intro q1 hq1 q2 hq2 hne x hx1
    rw [hLC q1.1] at hx1
    rw [hLC q2.1]
    exact WF_listChain_disjoint hWF hne x hx1
  · intro e he hnot
    obtain ⟨heM, hea⟩ := mem_adel he
    have hgE : getNode m e.1 = some e.2 := getNode_of_mem_nodes hWF.2.1 heM
    refine WF_unlinked hWF hgE ?_
    intro l
    rw [← hLC l]
    exact hnot l
  · intro e he
    obtain ⟨heM, _⟩ := mem_adel he
    exact WF_count hWF (getNode_of_mem_nodes hWF.2.1 heM)

/-- Link-relevant projection of a node entry: everything except the
strong count. -/
def stripC (e : Nat × Node α) : Nat × α × Option CellId × Option Nat :=
  (e.1, e.2.value, e.2.prev_next, e.2.next)

theorem strip_proj : ∀ {L L' : List (Nat × Node α)},
    L.map stripC = L'.map stripC → ∀ x,
    (alook x L).map Node.prev_next = (alook x L').map Node.prev_next ∧
    (alook x L).map Node.next = (alook x L').map Node.next ∧
    (alook x L).map Node.value = (alook x L').map Node.value ∧
    (alook x L).isSome = (alook x L').isSome
  | [], [], _, x => ⟨rfl, rfl, rfl, rfl⟩
  | [], e :: L', h, x => by simp [stripC] at h
  | e :: L, [], h, x => by simp [stripC] at h
  | (k, nd) :: L, (k', nd') :: L', h, x => by
    simp only [List.map_cons, List.cons.injEq, stripC, Prod.mk.injEq] at h
    obtain ⟨⟨hk, hv, hpn, hnx⟩, hrest⟩ := h
    by_cases hkx : k = x
    · subst hkx
      rw [← hk]
      simp [alook, hv, hpn, hnx]
    · rw [← hk]
      simp only [alook, if_neg hkx]
      exact strip_proj hrest x

theorem strip_keys : ∀ {L L' : List (Nat × Node α)},
    L.map stripC = L'.map stripC → L.map Prod.fst = L'.map Prod.fst
  | [], [], _ => rfl
  | [], e :: L', h => by simp [stripC] at h
  | e :: L, [], h => by simp [stripC] at h
  | (k, nd) :: L, (k', nd') :: L', h => by
    simp only [List.map_cons, List.cons.injEq, stripC, Prod.mk.injEq] at h
    obtain ⟨⟨hk, _, _, _⟩, hrest⟩ := h
    simp only [List.map_cons, hk, strip_keys hrest]

/-- Chains only depend on the link-relevant projection and the heads. -/
theorem chainF_congr_links {m m' : Mem α}
    (hn : ∀ x, nextOf m' x = nextOf m x)
    (hs : ∀ x, (getNode m' x).isSome = (getNode m x).isSome) :
    ∀ (fuel : Nat) (v : Option Nat), chainF m' fuel v = chainF m fuel v := by
  intro fuel
  induction fuel with
  | zero =>
    intro v
    cases v <;> rfl
  | succ f ih =>
    intro v
    cases v with
    | none => rfl
    | some a =>
      cases hga : getNode m a with
      | none =>
        have : getNode m' a = none := by
          have h2 := hs a
          rw [hga] at h2
          simpa using h2
        rw [chainF, chainF, hga, this]
      | some nd =>
        have h2 := hs a
        rw [hga] at h2
        obtain ⟨nd', hnd'⟩ := Option.isSome_iff_exists.mp (by simpa using h2)
        have h3 := hn a
        rw [nextOf, nextOf, hga, hnd'] at h3
        simp only [Option.map_some'] at h3
        injection h3 with h3
        simp only [chainF, hga, hnd', h3, ih]

theorem chainF_mono {m : Mem α} :
    ∀ {fuel fuel' : Nat} {v : Option Nat} {cs : List Nat},
    chainF m fuel v = some cs → fuel ≤ fuel' → chainF m fuel' v = some cs := by
  intro fuel
  induction fuel with
  | zero =>
    intro fuel' v cs h _
    cases v with
    | none => rw [chainF_none] at h ⊢; exact h
    | some a => rw [chainF] at h; cases h
  | succ f ih =>
    intro fuel' v cs h hle
    cases v with
    | none => rw [chainF_none] at h ⊢; exact h
    | some a =>
      cases fuel' with
      | zero => cases Nat.not_succ_le_zero f hle
      | succ f' =>
        cases hga : getNode m a with
        | none => simp only [chainF, hga] at h; cases h
        | some nd =>
          cases hcf : chainF m f nd.next with
          | none => simp only [chainF, hga, hcf] at h; cases h
          | some rest =>
            simp only [chainF, hga, hcf] at h
            simp only [chainF, hga, ih hcf (Nat.le_of_succ_le_succ hle)]
            exact h

/-- Well-formedness и chain preservation for a heap whose links agree
with a well-formed one and whose counts stay positive. -/
theorem WF_of_links_eq {m m' : Mem α}
    (hh : m'.heads = m.heads)
    (hs : m'.nodes.map stripC = m.nodes.map stripC)
    (hf : m'.fresh = m.fresh)
    (hcnt : ∀ e ∈ m'.nodes, 1 ≤ e.2.strong_count)
    (hWF : WF m) : WF m' ∧ (∀ l, listChain m' l = listChain m l) := by
  have hproj := fun x => strip_proj hs x
  have hprev : ∀ x, prevOf m' x = prevOf m x := fun x => (hproj x).1
  have hnext : ∀ x, nextOf m' x = nextOf m x := fun x => (hproj x).2.1
  have hval : ∀ x, valOf m' x = valOf m x := fun x => (hproj x).2.2.1
  have hiss : ∀ x, (getNode m' x).isSome = (getNode m x).isSome :=
    fun x => (hproj x).2.2.2
  have hgh : ∀ l, getHead m' l = getHead m l := by
    intro l
    rw [getHead, getHead, hh]
  have hnk : nkeys m' = nkeys m := strip_keys hs
  have hhk : hkeys m' = hkeys m := by
    unfold hkeys
    rw [hh]
  have hLC : ∀ l, listChain m' l = listChain m l := by
    intro l
    rw [listChain, listChain, hgh]
    cases getHead m l with
    | none => rfl
    | some v =>
      have hlen : m'.nodes.length = m.nodes.length := by
        have h2 := congrArg List.length hs
        simpa using h2
      show (chain m' v).getD [] = (chain m v).getD []
      unfold chain
      rw [chainF_congr_links hnext hiss, hlen]
  have hg' : ∀ l cs pred, goodSeg m l pred cs → goodSeg m' l pred cs := by
    intro l cs pred hg
    exact goodSeg_congr (fun x _ => hprev x) (fun x _ => hnext x)
      (fun _ => hgh l) hg
  refine ⟨?_, hLC⟩
  refine WF_intro (by rw [hhk]; exact hWF.1)
    (by rw [hnk]; exact hWF.2.1)
    (by rw [hhk, hf]; exact hWF.2.2.1)
    (by rw [hnk, hf]; exact hWF.2.2.2.1) ?_ ?_ ?_ hcnt
  · intro q hq
    rw [hh] at hq
    have hhd : getHead m q.1 = some q.2 := getHead_of_mem_heads hWF.1 hq
    obtain ⟨_, hg, hnodup, hv⟩ := WF_chain hWF hhd
    exact ⟨listChain m q.1, hg' _ _ _ hg, hnodup, hv⟩
  · intro q1 hq1 q2 hq2 hne x hx1
    rw [hLC] at hx1
    rw [hLC]
    exact WF_listChain_disjoint hWF hne x hx1
  · intro e he hnot
    have hx := hiss e.1
    have hgE : getNode m' e.1 = some e.2 :=
      getNode_of_mem_nodes (by rw [hnk]; exact hWF.2.1) he
    rw [hgE] at hx
    obtain ⟨ndx, hndx⟩ := Option.isSome_iff_exists.mp (by simpa using hx.symm)
    have hold : ndx.prev_next = none := by
      refine WF_unlinked hWF hndx ?_
      intro l
      rw [← hLC l]
      exact hnot l
    have hpx := hprev e.1
    rw [prevOf, prevOf, hgE, hndx] at hpx
    simp only [Option.map_some'] at hpx
    injection hpx with hpx
    rw [hpx, hold]

theorem map_stripC_aset : ∀ {L : List (Nat × Node α)} {a : Nat}
    {nd nd' : Node α}, alook a L = some nd →
    nd'.value = nd.value → nd'.prev_next = nd.prev_next → nd'.next = nd.next →
    (aset a nd' L).map stripC = L.map stripC
  | [], a, nd, nd', h, _, _, _ => by simp [alook] at h
  | (k, nd0) :: L, a, nd, nd', h, h1, h2, h3 => by
    by_cases hk : k = a
    · subst hk
      simp only [alook, if_pos rfl] at h
      injection h with h
      subst h
      simp [aset, stripC, h1, h2, h3]
    · simp only [alook, if_neg hk] at h
      simp only [aset, if_neg hk, List.map_cons, List.cons.injEq]
      exact ⟨trivial, map_stripC_aset h h1 h2 h3⟩

/-- Execution of `Handle.from_raw_node` (also the body of `clone`). -/
theorem from_raw_spec {m : Mem α} {a : Nat} {nd : Node α}
    (hnd : getNode m a = some nd) :
    Handle.from_raw_node m a =
      some (setNode m a { nd with strong_count := nd.strong_count + 1 }) ∧
    (setNode m a { nd with strong_count := nd.strong_count + 1 }).heads
      = m.heads ∧
    (setNode m a { nd with strong_count := nd.strong_count + 1 }).nodes.map
      stripC = m.nodes.map stripC ∧
    countOf (setNode m a { nd with strong_count := nd.strong_count + 1 }) a
      = some (nd.strong_count + 1) ∧
    (∀ x, x ≠ a →
      countOf (setNode m a { nd with strong_count := nd.strong_count + 1 }) x
        = countOf m x) := by
  refine ⟨by simp [Handle.from_raw_node, hnd], rfl, ?_, ?_, ?_⟩
  · exact map_stripC_aset hnd rfl rfl rfl
  · rw [countOf_setNode_self hnd]
  · intro x hx
    exact countOf_setNode_ne (fun he => hx he.symm) _

/-- Execution of the chain walk of `upgrade_all`: it returns exactly the
chain, changes no link and no value, and adds one to the count of every
chain node. -/
theorem upgradeAux_spec :
    ∀ (cs : List Nat) (m : Mem α) (v : Option Nat) (fuel : Nat),
    chainF m fuel v = some cs → cs.Nodup →
    ∃ m', upgradeAux fuel m v = some (m', cs) ∧
      m'.heads = m.heads ∧ m'.nodes.map stripC = m.nodes.map stripC ∧
      m'.dropped = m.dropped ∧ m'.fresh = m.fresh ∧
      (∀ x ∈ cs, countOf m' x = (countOf m x).map (· + 1)) ∧
      (∀ x, x ∉ cs → countOf m' x = countOf m x)
  | cs, m, none, fuel, h, _ => by
    rw [chainF_none] at h
    injection h with h
    subst h
    refine ⟨m, ?_, rfl, rfl, rfl, rfl, ?_, fun x _ => rfl⟩
    · cases fuel <;> rfl
    · intro x hx
      cases hx
  | cs, m, some a, 0, h, _ => by rw [chainF] at h; cases h
  | cs, m, some a, fuel + 1, h, hnodup => by
    rcases optionCases (getNode m a) with hga | ⟨nd, hga⟩
    · simp only [chainF, hga] at h
      cases h
    · simp only [chainF, hga] at h
      rcases optionCases (chainF m fuel nd.next) with hcf | ⟨rest, hcf⟩
      · rw [hcf] at h
        cases h
      · rw [hcf] at h
        simp only [Option.some.injEq] at h
        subst h
        rw [List.nodup_cons] at hnodup
        obtain ⟨hanr, hrestnd⟩ := hnodup
        obtain ⟨hfr, hh1, hs1, hc1self, hc1o⟩ := from_raw_spec hga
        set m1 := setNode m a { nd with strong_count := nd.strong_count + 1 }
          with hm1
        have hnd1 : getNode m1 a
            = some { nd with strong_count := nd.strong_count + 1 } := by
          rw [hm1, getNode_setNode_self, hga]
          rfl
        have hcf1 : chainF m1 fuel nd.next = some rest := by
          rw [@chainF_congr_links _ m m1
            (fun x => (strip_proj hs1 x).2.1)
            (fun x => (strip_proj hs1 x).2.2.2), hcf]
        obtain ⟨m2, hup, hh2, hs2, hd2, hf2, hcin, hcout⟩ :=
          upgradeAux_spec rest m1 nd.next fuel hcf1 hrestnd
        refine ⟨m2, ?_, hh2.trans hh1, hs2.trans hs1, hd2, hf2, ?_, ?_⟩
        · simp only [upgradeAux, hfr, hnd1, hup]
        · intro x hx
          rcases List.mem_cons.mp hx with rfl | hx
          · rw [hcout x hanr, hc1self, countOf, hga]
            rfl
          · rw [hcin x hx, hc1o x (fun he => hanr (he ▸ hx))]
        · intro x hx
          have hxa : x ≠ a := fun he => hx (he ▸ List.mem_cons_self a rest)
          rw [hcout x (fun hc => hx (List.mem_cons_of_mem a hc)), hc1o x hxa]

/-- Full specification of `upgrade_all` on a well-formed heap: it
returns handles for exactly the chain of the list, head first, mutating
no link, no value, no key and no drop log; only the counts of the chain
nodes grow by one. -/
theorem upgrade_all_spec {m : Mem α} (hWF : WF m) {l : Nat} {v : Option Nat}
    (hh : getHead m l = some v) :
    ∃ m', WeakList.upgrade_all m l = some (m', listChain m l) ∧ WF m' ∧
      m'.heads = m.heads ∧ m'.nodes.map stripC = m.nodes.map stripC ∧
      m'.dropped = m.dropped ∧ m'.fresh = m.fresh ∧
      (∀ l', listChain m' l' = listChain m l') ∧
      (∀ x ∈ listChain m l, countOf m' x = (countOf m x).map (· + 1)) ∧
      (∀ x, x ∉ listChain m l → countOf m' x = countOf m x) ∧
      (∀ x, valOf m' x = valOf m x) := by
  obtain ⟨hch, hg, hnodup, hv⟩ := WF_chain hWF hh
  have hch' : chainF m (m.nodes.length + 1) v = some (listChain m l) :=
    chainF_mono hch (Nat.le_succ _)
  obtain ⟨m', hup, hh', hs', hd', hf', hcin, hcout⟩ :=
    upgradeAux_spec (listChain m l) m v (m.nodes.length + 1) hch' hnodup
  have hcnt' : ∀ e ∈ m'.nodes, 1 ≤ e.2.strong_count := by
    intro e he
    have hnod' : (nkeys m').Nodup := by
      unfold nkeys
      rw [strip_keys hs']
      exact hWF.2.1
    have hgE : getNode m' e.1 = some e.2 := getNode_of_mem_nodes hnod' he
    have hmemN : e.1 ∈ nkeys m := by
      unfold nkeys
      rw [← strip_keys hs']
      exact getNode_mem_nkeys hgE
    obtain ⟨ndx, hndx⟩ := Option.isSome_iff_exists.mp (alook_isSome_of_mem hmemN)
    have hgx : getNode m e.1 = some ndx := hndx
    have hcnt1 := WF_count hWF hgx
    by_cases hmem : e.1 ∈ listChain m l
    · have h2 := hcin e.1 hmem
      rw [countOf, countOf, hgE, hgx] at h2
      simp only [Option.map_some'] at h2
      injection h2 with h2
      rw [h2]
      exact Nat.le_succ_of_le hcnt1
    · have h2 := hcout e.1 hmem
      rw [countOf, countOf, hgE, hgx] at h2
      simp only [Option.map_some'] at h2
      injection h2 with h2
      rw [h2]
      exact hcnt1
  obtain ⟨hWF', hLC⟩ := WF_of_links_eq hh' hs' hf' hcnt' hWF
  refine ⟨m', ?_, hWF', hh', hs', hd', hf', hLC, hcin, hcout,
    fun x => (strip_proj hs' x).2.2.1⟩
  simp only [WeakList.upgrade_all, hh, hup]

theorem detachAll_chain {α : Type} {l : Nat} :
    ∀ (hs : List Nat) (m : Mem α), WF m → listChain m l = hs →
    ∃ m', detachAll m hs = some m' ∧ WF m' ∧ listChain m' l = [] ∧
      (∀ l', l' ≠ l → listChain m' l' = listChain m l') ∧
      hkeys m' = hkeys m ∧ nkeys m' = nkeys m ∧
      m'.dropped = m.dropped ∧ m'.fresh = m.fresh ∧
      (∀ x, countOf m' x = countOf m x) ∧ (∀ x, valOf m' x = valOf m x)
  | [], m, hWF, hlc => ⟨m, rfl, hWF, hlc, fun l' _ => rfl, rfl, rfl, rfl, rfl,
      fun x => rfl, fun x => rfl⟩
  | a :: rest, m, hWF, hlc => by
    have hmem : a ∈ listChain m l := by
      rw [hlc]
      exact List.mem_cons_self a rest
    have hhe : ∃ v, getHead m l = some v := by
      cases hh : getHead m l with
      | none => rw [listChain, hh] at hlc; cases hlc
      | some v => exact ⟨v, rfl⟩
    obtain ⟨v, hh⟩ := hhe
    obtain ⟨_, hg, hnodup, _⟩ := WF_chain hWF hh
    obtain ⟨nd, hnd⟩ := goodSeg_alloc hg a hmem
    obtain ⟨m1, hdet, hWF1, F1, hnotin, hUnch, hSplit, hk1, hn1, hd1, hf1,
      hc1, hv1, _⟩ := detach_total hWF hnd
    have hanr : a ∉ rest := by
      rw [hlc] at hnodup
      rw [List.nodup_cons] at hnodup
      exact hnodup.1
    have hrest : listChain m1 l = rest := by
      have := hSplit l [] rest (by simpa using hlc) (List.not_mem_nil a) hanr
      simpa using this
    obtain ⟨m2, hdet2, hWF2, hlc2, hother2, hk2, hn2, hd2, hf2, hc2, hv2⟩ :=
      detachAll_chain rest m1 hWF1 hrest
    refine ⟨m2, ?_, hWF2, hlc2, ?_, hk2.trans hk1, hn2.trans hn1,
      hd2.trans hd1, hf2.trans hf1, fun x => (hc2 x).trans (hc1 x),
      fun x => (hv2 x).trans (hv1 x)⟩
    · simp only [detachAll, Handle.detach, hdet, hdet2]
    · intro l' hne
      rw [hother2 l' hne]
      refine hUnch l' ?_
      exact @WF_listChain_disjoint _ _ hWF l l' (fun he => hne he.symm)
        a hmem

/-- Full specification of `take_all` on a well-formed heap: it returns
the same handle sequence as `upgrade_all` would, empties the list's
chain, leaves other lists alone, frees nothing and drops no value. -/
theorem take_all_spec {m : Mem α} (hWF : WF m) {l : Nat} {v : Option Nat}
    (hh : getHead m l = some v) :
    ∃ m', WeakList.take_all m l = some (m', listChain m l) ∧ WF m' ∧
      listChain m' l = [] ∧
      (∀ l', l' ≠ l → listChain m' l' = listChain m l') ∧
      m'.dropped = m.dropped ∧ nkeys m' = nkeys m ∧ hkeys m' = hkeys m ∧
      m'.fresh = m.fresh ∧
      (∀ x ∈ listChain m l, countOf m' x = (countOf m x).map (· + 1)) ∧
      (∀ x, x ∉ listChain m l → countOf m' x = countOf m x) ∧
      (∀ x, valOf m' x = valOf m x) := by
  obtain ⟨mu, hup, hWFu, hhu, hsu, hdu, hfu, hLCu, hcin, hcout, hvu⟩ :=
    upgrade_all_spec hWF hh
  obtain ⟨m', hdet, hWF', hlc', hother', hk', hn', hd', hf', hc', hv'⟩ :=
    detachAll_chain (listChain m l) mu hWFu (hLCu l)
  have hku : hkeys mu = hkeys m := by
    unfold hkeys
    rw [hhu]
  refine ⟨m', ?_, hWF', hlc', ?_, hd'.trans hdu, hn'.trans (strip_keys hsu),
    hk'.trans hku, hf'.trans hfu, ?_, ?_, fun x => (hv' x).trans (hvu x)⟩
  · simp only [WeakList.take_all, hup, hdet]
  · intro l' hne
    rw [hother' l' hne, hLCu l']
  · intro x hx
    rw [hc' x, hcin x hx]
  · intro x hx
    rw [hc' x, hcout x hx]

theorem dropAll_dec : ∀ (hs : List Nat) (m : Mem α), hs.Nodup →
    (∀ x ∈ hs, ∃ c, countOf m x = some (Nat.succ (Nat.succ c))) →
    ∃ m', dropAll m hs = some m' ∧
      m'.heads = m.heads ∧ m'.nodes.map stripC = m.nodes.map stripC ∧
      m'.dropped = m.dropped ∧ m'.fresh = m.fresh ∧
      (∀ x ∈ hs, countOf m' x = (countOf m x).map (· - 1)) ∧
      (∀ x, x ∉ hs → countOf m' x = countOf m x)
  | [], m, _, _ => ⟨m, rfl, rfl, rfl, rfl, rfl,
      fun x hx => absurd hx (List.not_mem_nil x), fun x _ => rfl⟩
  | a :: rest, m, hnodup, hcnt => by
    rw [List.nodup_cons] at hnodup
    obtain ⟨hanr, hrestnd⟩ := hnodup
    obtain ⟨c, hc⟩ := hcnt a (List.mem_cons_self a rest)
    have hnde : ∃ nd, getNode m a = some nd ∧
        nd.strong_count = Nat.succ (Nat.succ c) := by
      rcases optionCases (getNode m a) with hga | ⟨nd, hga⟩
      · rw [countOf, hga] at hc; cases hc
      · rw [countOf, hga] at hc
        simp only [Option.map_some'] at hc
        injection hc with hc
        exact ⟨nd, hga, hc⟩
    obtain ⟨nd, hnd, hcnd⟩ := hnde
    have hdrop : Handle.drop m a = some (setNode m a
        { nd with strong_count := Nat.succ (Nat.succ c) - 1 }) := by
      simp [Handle.drop, hnd, hcnd]
    set m1 := setNode m a { nd with strong_count := Nat.succ (Nat.succ c) - 1 }
      with hm1
    have hs1 : m1.nodes.map stripC = m.nodes.map stripC :=
      map_stripC_aset hnd rfl rfl rfl
    have hc1self : countOf m1 a = some (Nat.succ c) := by
      rw [hm1, countOf_setNode_self hnd]
      rfl
    have hc1o : ∀ x, x ≠ a → countOf m1 x = countOf m x := by
      intro x hx
      rw [hm1]
      exact countOf_setNode_ne (fun he => hx he.symm) _
    have hcnt1 : ∀ x ∈ rest, ∃ c', countOf m1 x = some (Nat.succ (Nat.succ c')) := by
      intro x hx
      obtain ⟨c', hc'⟩ := hcnt x (List.mem_cons_of_mem a hx)
      exact ⟨c', by rw [hc1o x (fun he => hanr (he ▸ hx)), hc']⟩
    obtain ⟨m2, hda, hh2, hs2, hd2, hf2, hcin2, hcout2⟩ :=
      dropAll_dec rest m1 hrestnd hcnt1
    refine ⟨m2, ?_, hh2, hs2.trans hs1, hd2, hf2, ?_, ?_⟩
    · simp only [dropAll, hdrop, hda]
    · intro x hx
      rcases List.mem_cons.mp hx with rfl | hx
      · rw [hcout2 x hanr, hc1self, hc]
        rfl
      · rw [hcin2 x hx, hc1o x (fun he => hanr (he ▸ hx))]
    · intro x hx
      have hxa : x ≠ a := fun he => hx (he ▸ List.mem_cons_self a rest)
      rw [hcout2 x (fun hcm => hx (List.mem_cons_of_mem a hcm)), hc1o x hxa]

/-- Full specification of `clear` on a well-formed heap: it empties the
list's chain, drops no value, frees no node and restores every strong
count; values and other lists are untouched. -/
theorem clear_spec {m : Mem α} (hWF : WF m) {l : Nat} {v : Option Nat}
    (hh : getHead m l = some v) :
    ∃ m', WeakList.clear m l = some m' ∧ WF m' ∧
      listChain m' l = [] ∧
      (∀ l', l' ≠ l → listChain m' l' = listChain m l') ∧
      m'.dropped = m.dropped ∧ nkeys m' = nkeys m ∧ hkeys m' = hkeys m ∧
      m'.fresh = m.fresh ∧
      (∀ x, countOf m' x = countOf m x) ∧ (∀ x, valOf m' x = valOf m x) := by
  obtain ⟨mt, htake, hWFt, hlct, hothert, hdt, hnt, hkt, hft, hcint, hcoutt,
    hvt⟩ := take_all_spec hWF hh
  have hnodup := WF_listChain_nodup hWF l
  have hcnt2 : ∀ x ∈ listChain m l, ∃ c,
      countOf mt x = some (Nat.succ (Nat.succ c)) := by
    intro x hx
    obtain ⟨_, hg, _, _⟩ := WF_chain hWF hh
    obtain ⟨ndx, hndx⟩ := goodSeg_alloc hg x hx
    have hc1 := WF_count hWF hndx
    obtain ⟨k, hk⟩ := Nat.exists_eq_add_of_le hc1
    have hmap := hcint x hx
    rw [show countOf m x = some ndx.strong_count from by
      simp [countOf, hndx]] at hmap
    simp only [Option.map_some'] at hmap
    refine ⟨k, ?_⟩
    rw [hmap]
    congr 1
    omega
  obtain ⟨m', hdall, hh', hs', hd', hf', hcin', hcout'⟩ :=
    dropAll_dec (listChain m l) mt hnodup hcnt2
  have hcfinal : ∀ x, countOf m' x = countOf m x := by
    intro x
    by_cases hx : x ∈ listChain m l
    · rw [hcin' x hx, hcint x hx]
      cases hcx : countOf m x with
      | none => rfl
      | some cx => simp
    · rw [hcout' x hx, hcoutt x hx]
  have hcntpos : ∀ e ∈ m'.nodes, 1 ≤ e.2.strong_count := by
    intro e he
    have hnodt : (nkeys mt).Nodup := by
      rw [hnt]
      exact hWF.2.1
    have hnod' : (nkeys m').Nodup := by
      unfold nkeys
      rw [strip_keys hs']
      exact hnodt
    have hgE : getNode m' e.1 = some e.2 := getNode_of_mem_nodes hnod' he
    have hmemN : e.1 ∈ nkeys m := by
      rw [← hnt]
      unfold nkeys
      rw [← strip_keys hs']
      exact getNode_mem_nkeys hgE
    obtain ⟨ndx, hndx⟩ := Option.isSome_iff_exists.mp (alook_isSome_of_mem hmemN)
    have hgx : getNode m e.1 = some ndx := hndx
    have h2 := hcfinal e.1
    rw [countOf, countOf, hgE, hgx] at h2
    simp only [Option.map_some'] at h2
    injection h2 with h2
    rw [h2]
    exact WF_count hWF hgx
  obtain ⟨hWF', hLC'⟩ := WF_of_links_eq hh' hs' hf' hcntpos hWFt
  refine ⟨m', ?_, hWF', ?_, ?_, hd'.trans hdt, ?_, ?_, hf'.trans hft,
    hcfinal, ?_⟩
  · simp only [WeakList.clear, htake, hdall]
  · rw [hLC' l, hlct]
  · intro l' hne
    rw [hLC' l', hothert l' hne]
  · unfold nkeys
    rw [strip_keys hs']
    exact hnt
  · have : hkeys m' = hkeys mt := by
      unfold hkeys
      rw [hh']
    rw [this]
    exact hkt
  · intro x
    exact ((strip_proj hs' x).2.2.1).trans (hvt x)

/-- Record of a freshly pushed node after `new_elem` finishes. -/
def newNode (l : Nat) (v : Option Nat) (val : α) : Node α :=
  { value := val, strong_count := 1, prev_next := some (CellId.headCell l),
    next := v }

/-- Heap after the allocation step of `new_before`. -/
def memAlloc (m : Mem α) (val : α) (v : Option Nat) : Mem α :=
  { m with
    nodes :=
      (m.fresh,
        { value := val, strong_count := 0, prev_next := none, next := v })
        :: m.nodes,
    fresh := m.fresh + 1 }

theorem getNode_memAlloc_self (m : Mem α) (val : α) (v : Option Nat) :
    getNode (memAlloc m val v) m.fresh
      = some
        { value := val, strong_count := 0, prev_next := none, next := v } := by
  show alook m.fresh ((m.fresh, _) :: m.nodes) = _
  simp [alook]

theorem getNode_memAlloc_ne (m : Mem α) (val : α) (v : Option Nat) {x : Nat}
    (h : x ≠ m.fresh) : getNode (memAlloc m val v) x = getNode m x := by
  show alook x ((m.fresh, _) :: m.nodes) = _
  simp only [alook]
  rw [if_neg (fun he => h he.symm)]
  rfl

theorem getHead_memAlloc (m : Mem α) (val : α) (v : Option Nat) (l : Nat) :
    getHead (memAlloc m val v) l = getHead m l := rfl

theorem nkeys_memAlloc (m : Mem α) (val : α) (v : Option Nat) :
    nkeys (memAlloc m val v) = m.fresh :: nkeys m := rfl

theorem new_before_none (m : Mem α) (val : α) :
    Node.new_before m none val = some (memAlloc m val none, m.fresh) := rfl

theorem new_before_some {m : Mem α} {nx : Nat} {ndx : Node α} (val : α)
    (hnx : getNode (memAlloc m val (some nx)) nx = some ndx) :
    Node.new_before m (some nx) val = some
      (setNode (memAlloc m val (some nx)) nx
        { ndx with prev_next := some (CellId.nextCell m.fresh) }, m.fresh) := by
  have h2 := setPrevNext_eq hnx (some (CellId.nextCell m.fresh))
  simp only [memAlloc] at h2
  simp only [Node.new_before, h2]
  rfl

/-- Execution of `new_elem` with a full frame description. -/
theorem new_elem_run {m : Mem α} {l : Nat} {v : Option Nat}
    (hh : getHead m l = some v) (val : α)
    (hocc : ∀ b, v = some b → (getNode m b).isSome ∧ b ≠ m.fresh) :
    ∃ m', WeakList.new_elem m l val = some (m', m.fresh) ∧
      getNode m' m.fresh = some (newNode l v val) ∧
      (∀ b, v = some b → prevOf m' b = some (some (CellId.nextCell m.fresh))) ∧
      (∀ x, x ≠ m.fresh → v ≠ some x → prevOf m' x = prevOf m x) ∧
      (∀ x, x ≠ m.fresh → nextOf m' x = nextOf m x) ∧
      (∀ x, x ≠ m.fresh → countOf m' x = countOf m x) ∧
      (∀ x, x ≠ m.fresh → valOf m' x = valOf m x) ∧
      (∀ x, x ≠ m.fresh → (getNode m' x).isSome = (getNode m x).isSome) ∧
      getHead m' l = some (some m.fresh) ∧
      (∀ l', l' ≠ l → getHead m' l' = getHead m l') ∧
      hkeys m' = hkeys m ∧ nkeys m' = m.fresh :: nkeys m ∧
      m'.dropped = m.dropped ∧ m'.fresh = m.fresh + 1 := by
  rcases optionCases v with hv | ⟨origin, hv⟩
  all_goals subst hv
  · -- empty list: no occupant
    have h1 := getNode_memAlloc_self m val none
    have hsp2 := setPrevNext_eq h1 (some (CellId.headCell l))
    have hh3 : getHead (setNode (memAlloc m val none) m.fresh
        { value := val, strong_count := 0, prev_next := some (CellId.headCell l), next := none }) l
        = some none := hh
    have hwc := writeCell_headCell_eq hh3 (some m.fresh)
    have h4a : getNode (memWriteHead (setNode (memAlloc m val none) m.fresh
        { value := val, strong_count := 0, prev_next := some (CellId.headCell l), next := none }) l
        (some m.fresh)) m.fresh
        = some { value := val, strong_count := 0, prev_next := some (CellId.headCell l), next := none } := by
      rw [getNode_memWriteHead, getNode_setNode_self, h1]
      rfl
    have hfr : Handle.from_raw_node (memWriteHead
        (setNode (memAlloc m val none) m.fresh
          { value := val, strong_count := 0, prev_next := some (CellId.headCell l), next := none }) l
        (some m.fresh)) m.fresh
        = some (setNode (memWriteHead (setNode (memAlloc m val none) m.fresh
            { value := val, strong_count := 0, prev_next := some (CellId.headCell l), next := none }) l
            (some m.fresh)) m.fresh (newNode l none val)) := by
      simp [Handle.from_raw_node, h4a, newNode]
    refine ⟨setNode (memWriteHead (setNode (memAlloc m val none) m.fresh
        { value := val, strong_count := 0, prev_next := some (CellId.headCell l), next := none }) l
        (some m.fresh)) m.fresh (newNode l none val),
      ?_, ?_, ?_, ?_, ?_, ?_, ?_, ?_, ?_, ?_, ?_, ?_, ?_, ?_⟩
    · simp only [WeakList.new_elem, hh, new_before_none, hsp2, hwc, hfr]
    · rw [getNode_setNode_self, h4a]
      rfl
    · intro b hb
      cases hb
    · intro x hx _
      rw [prevOf_setNode_ne (fun he => hx he.symm), prevOf_memWriteHead,
        prevOf_setNode_ne (fun he => hx he.symm)]
      show prevOf (memAlloc m val none) x = prevOf m x
      rw [prevOf, prevOf, getNode_memAlloc_ne m val none hx]
    · intro x hx
      rw [nextOf_setNode_ne (fun he => hx he.symm), nextOf_memWriteHead,
        nextOf_setNode_ne (fun he => hx he.symm)]
      show nextOf (memAlloc m val none) x = nextOf m x
      rw [nextOf, nextOf, getNode_memAlloc_ne m val none hx]
    · intro x hx
      rw [countOf_setNode_ne (fun he => hx he.symm), countOf_memWriteHead,
        countOf_setNode_ne (fun he => hx he.symm)]
      show countOf (memAlloc m val none) x = countOf m x
      rw [countOf, countOf, getNode_memAlloc_ne m val none hx]
    · intro x hx
      rw [valOf_setNode_ne (fun he => hx he.symm), valOf_memWriteHead,
        valOf_setNode_ne (fun he => hx he.symm)]
      show valOf (memAlloc m val none) x = valOf m x
      rw [valOf, valOf, getNode_memAlloc_ne m val none hx]
    · intro x hx
      rw [getNode_setNode_ne _ (fun he => hx he.symm), getNode_memWriteHead,
        getNode_setNode_ne _ (fun he => hx he.symm),
        getNode_memAlloc_ne m val none hx]
    · show getHead (memWriteHead (setNode (memAlloc m val none) m.fresh
          { value := val, strong_count := 0, prev_next := some (CellId.headCell l), next := none }) l
          (some m.fresh)) l = some (some m.fresh)
      exact getHead_memWriteHead_self hh3 (some m.fresh)
    · intro l' hl'
      show getHead (memWriteHead (setNode (memAlloc m val none) m.fresh
          { value := val, strong_count := 0, prev_next := some (CellId.headCell l), next := none }) l
          (some m.fresh)) l' = getHead m l'
      rw [getHead_memWriteHead_ne (fun he => hl' he.symm)]
      rfl
    · show hkeys (memWriteHead (setNode (memAlloc m val none) m.fresh
          { value := val, strong_count := 0, prev_next := some (CellId.headCell l), next := none }) l
          (some m.fresh)) = hkeys m
      rw [hkeys_memWriteHead]
      rfl
    · rw [nkeys_setNode, nkeys_memWriteHead, nkeys_setNode, nkeys_memAlloc]
    · rfl
    · rfl
  · -- the list already has a first node `origin`
    obtain ⟨hoccS, hoccne⟩ := hocc origin rfl
    obtain ⟨ndo, hndo⟩ := Option.isSome_iff_exists.mp hoccS
    have hndo1 : getNode (memAlloc m val (some origin)) origin = some ndo := by
      rw [getNode_memAlloc_ne m val (some origin) hoccne, hndo]
    have hnb := new_before_some val hndo1
    have h1 : getNode (setNode (memAlloc m val (some origin)) origin
        { ndo with prev_next := some (CellId.nextCell m.fresh) }) m.fresh
        = some { value := val, strong_count := 0, prev_next := none, next := some origin } := by
      rw [getNode_setNode_ne _ hoccne, getNode_memAlloc_self]
    have hsp2 := setPrevNext_eq h1 (some (CellId.headCell l))
    have hh3 : getHead (setNode (setNode (memAlloc m val (some origin)) origin
        { ndo with prev_next := some (CellId.nextCell m.fresh) }) m.fresh
        { value := val, strong_count := 0, prev_next := some (CellId.headCell l), next := some origin }) l
        = some (some origin) := hh
    have hwc := writeCell_headCell_eq hh3 (some m.fresh)
    have h4a : getNode (memWriteHead (setNode (setNode
        (memAlloc m val (some origin)) origin
        { ndo with prev_next := some (CellId.nextCell m.fresh) }) m.fresh
        { value := val, strong_count := 0, prev_next := some (CellId.headCell l), next := some origin }) l
        (some m.fresh)) m.fresh
        = some { value := val, strong_count := 0, prev_next := some (CellId.headCell l), next := some origin } := by
      rw [getNode_memWriteHead, getNode_setNode_self, h1]
      rfl
    have hfr : Handle.from_raw_node (memWriteHead (setNode (setNode
        (memAlloc m val (some origin)) origin
        { ndo with prev_next := some (CellId.nextCell m.fresh) }) m.fresh
        { value := val, strong_count := 0, prev_next := some (CellId.headCell l), next := some origin }) l
        (some m.fresh)) m.fresh
        = some (setNode (memWriteHead (setNode (setNode
            (memAlloc m val (some origin)) origin
            { ndo with prev_next := some (CellId.nextCell m.fresh) }) m.fresh
            { value := val, strong_count := 0, prev_next := some (CellId.headCell l), next := some origin }) l
            (some m.fresh)) m.fresh (newNode l (some origin) val)) := by
      simp [Handle.from_raw_node, h4a, newNode]
    have horigne : origin ≠ m.fresh := hoccne
    refine ⟨setNode (memWriteHead (setNode (setNode (memAlloc m val (some origin)) origin
        { ndo with prev_next := some (CellId.nextCell m.fresh) }) m.fresh
        { value := val, strong_count := 0, prev_next := some (CellId.headCell l), next := some origin }) l
        (some m.fresh)) m.fresh (newNode l (some origin) val),
      ?_, ?_, ?_, ?_, ?_, ?_, ?_, ?_, ?_, ?_, ?_, ?_, ?_, ?_⟩
    · simp only [WeakList.new_elem, hh, hnb, hsp2, hwc, hfr]
    · rw [getNode_setNode_self, h4a]
      rfl
    · intro b hb
      injection hb with hb
      subst hb
      rw [prevOf_setNode_ne (Ne.symm horigne), prevOf_memWriteHead,
        prevOf_setNode_ne (Ne.symm horigne), prevOf_setNode_self hndo1]
    · intro x hx hxo
      have hxo' : origin ≠ x := fun he => hxo (congrArg some he)
      rw [prevOf_setNode_ne (fun he => hx he.symm), prevOf_memWriteHead,
        prevOf_setNode_ne (fun he => hx he.symm), prevOf_setNode_ne hxo']
      show prevOf (memAlloc m val (some origin)) x = prevOf m x
      rw [prevOf, prevOf, getNode_memAlloc_ne m val (some origin) hx]
    · intro x hx
      rw [nextOf_setNode_ne (fun he => hx he.symm), nextOf_memWriteHead,
        nextOf_setNode_ne (fun he => hx he.symm)]
      by_cases hxo : x = origin
      · subst hxo
        rw [nextOf_setNode_self hndo1]
        show some ndo.next = nextOf m x
        rw [nextOf, hndo]
        rfl
      · rw [nextOf_setNode_ne (fun he => hxo he.symm)]
        show nextOf (memAlloc m val (some origin)) x = nextOf m x
        rw [nextOf, nextOf, getNode_memAlloc_ne m val (some origin) hx]
    · intro x hx
      rw [countOf_setNode_ne (fun he => hx he.symm), countOf_memWriteHead,
        countOf_setNode_ne (fun he => hx he.symm)]
      by_cases hxo : x = origin
      · subst hxo
        rw [countOf_setNode_self hndo1]
        show some ndo.strong_count = countOf m x
        rw [countOf, hndo]
        rfl
      · rw [countOf_setNode_ne (fun he => hxo he.symm)]
        show countOf (memAlloc m val (some origin)) x = countOf m x
        rw [countOf, countOf, getNode_memAlloc_ne m val (some origin) hx]
    · intro x hx
      rw [valOf_setNode_ne (fun he => hx he.symm), valOf_memWriteHead,
        valOf_setNode_ne (fun he => hx he.symm)]
      by_cases hxo : x = origin
      · subst hxo
        rw [valOf_setNode_self hndo1]
        show some ndo.value = valOf m x
        rw [valOf, hndo]
        rfl
      · rw [valOf_setNode_ne (fun he => hxo he.symm)]
        show valOf (memAlloc m val (some origin)) x = valOf m x
        rw [valOf, valOf, getNode_memAlloc_ne m val (some origin) hx]
    · intro x hx
      rw [getNode_setNode_ne _ (fun he => hx he.symm), getNode_memWriteHead,
        getNode_setNode_ne _ (fun he => hx he.symm)]
      by_cases hxo : x = origin
      · subst hxo
        rw [getNode_setNode_self, hndo1, hndo]
        rfl
      · rw [getNode_setNode_ne _ (fun he => hxo he.symm),
          getNode_memAlloc_ne m val (some origin) hx]
    · exact getHead_memWriteHead_self hh3 (some m.fresh)
    · intro l' hl'
      show getHead (memWriteHead _ l (some m.fresh)) l' = getHead m l'
      rw [getHead_memWriteHead_ne (fun he => hl' he.symm)]
      rfl
    · show hkeys (memWriteHead _ l (some m.fresh)) = hkeys m
      rw [hkeys_memWriteHead]
      rfl
    · rw [nkeys_setNode, nkeys_memWriteHead, nkeys_setNode, nkeys_setNode,
        nkeys_memAlloc]
    · rfl
    · rfl

/-- `new_elem` on a well-formed heap: the new node is prepended to the
list's chain, every other list and node is untouched, and well-formedness
is preserved. -/
theorem new_elem_spec {m : Mem α} {l : Nat} {v : Option Nat}
    (hWF : WF m) (hh : getHead m l = some v) (val : α) :
    ∃ m', WeakList.new_elem m l val = some (m', m.fresh) ∧ WF m' ∧
      listChain m' l = m.fresh :: listChain m l ∧
      (∀ l', l' ≠ l → listChain m' l' = listChain m l') ∧
      valOf m' m.fresh = some val ∧ countOf m' m.fresh = some 1 ∧
      (∀ x, x ≠ m.fresh → valOf m' x = valOf m x) ∧
      (∀ x, x ≠ m.fresh → countOf m' x = countOf m x) ∧
      hkeys m' = hkeys m ∧ nkeys m' = m.fresh :: nkeys m ∧
      m'.dropped = m.dropped ∧ m'.fresh = m.fresh + 1 ∧
      m.fresh ∉ nkeys m ∧ getHead m' l = some (some m.fresh) := by
  obtain ⟨hch, hg, hnodup, hv⟩ := WF_chain hWF hh
  have hfreshn : m.fresh ∉ nkeys m := fun hmem =>
    absurd (hWF.2.2.2.1 _ hmem) (lt_irrefl _)
  have hmem_ne : ∀ x, x ∈ nkeys m → x ≠ m.fresh :=
    fun x hx he => hfreshn (he ▸ hx)
  have hsubn : ∀ l'' x, x ∈ listChain m l'' → x ∈ nkeys m := by
    intro l'' x hx
    cases hh2 : getHead m l'' with
    | none => rw [listChain, hh2] at hx; cases hx
    | some v2 =>
      obtain ⟨_, hg2, _, _⟩ := WF_chain hWF hh2
      exact goodSeg_subset_nkeys hg2 x hx
  have hbmem : ∀ b, v = some b → b ∈ listChain m l := by
    intro b hb
    cases hcs : listChain m l with
    | nil => rw [hb, hcs] at hv; cases hv
    | cons c cs =>
      rw [hb, hcs, List.head?_cons] at hv
      injection hv with hv
      rw [hv]
      exact List.mem_cons_self c cs
  have hocc : ∀ b, v = some b → (getNode m b).isSome ∧ b ≠ m.fresh := by
    intro b hb
    have hbk : b ∈ nkeys m := hsubn l b (hbmem b hb)
    exact ⟨(getNode_isSome_iff_mem_nkeys m b).mpr hbk, hmem_ne b hbk⟩
  obtain ⟨m', hrun, hga, hprevB, hprevO, hnextO, hcntO, hvalO, hissO, hgh,
    hghO, hhk, hnk, hdr, hfr⟩ := new_elem_run hh val hocc
  have hpa : prevOf m' m.fresh = some (some (CellId.headCell l)) := by
    rw [prevOf, hga]
    rfl
  have hna : nextOf m' m.fresh = some v := by
    rw [nextOf, hga]
    rfl
  have hca : countOf m' m.fresh = some 1 := by
    rw [countOf, hga]
    rfl
  have hva : valOf m' m.fresh = some val := by
    rw [valOf, hga]
    rfl
  have htrans : ∀ l' v', l' ≠ l → getHead m l' = some v' →
      goodSeg m' l' none (listChain m l') := by
    intro l' v' hne hh2
    obtain ⟨_, hg2, _, _⟩ := WF_chain hWF hh2
    refine goodSeg_congr ?_ ?_ ?_ hg2
    · intro x hx
      refine hprevO x (hmem_ne x (goodSeg_subset_nkeys hg2 x hx)) ?_
      intro hvx
      exact WF_listChain_disjoint hWF hne x hx (hbmem x hvx)
    · intro x hx
      rcases hx with hx | hx
      · cases hx
      · exact hnextO x (hmem_ne x (goodSeg_subset_nkeys hg2 x hx))
    · intro _
      exact hghO l' hne
  have hother : ∀ l', l' ≠ l → listChain m' l' = listChain m l' := by
    intro l' hne
    cases hh2 : getHead m l' with
    | none => simp only [listChain, hghO l' hne, hh2]
    | some v' =>
      obtain ⟨_, _, hlc2⟩ :=
        chain_eq_of_goodSeg (htrans l' v' hne hh2) (WF_listChain_nodup hWF l')
      exact hlc2
  have hgseg0 : goodSeg m' l (some m.fresh) (listChain m l) := by
    cases hcs : listChain m l with
    | nil =>
      rw [goodSeg_nil, readCell_backPtr_some, hna]
      have hvn : v = none := by
        rw [hv, hcs]
        rfl
      rw [hvn]
    | cons b cs =>
      have hvb : v = some b := by
        rw [hv, hcs]
        rfl
      rw [goodSeg_cons]
      refine ⟨?_, hprevB b hvb, ?_⟩
      · rw [readCell_backPtr_some, hna, hvb]
      · have hgold : goodSeg m l (some b) cs := by
          rw [hcs] at hg
          exact (goodSeg_cons.mp hg).2.2
        have hnodupl : (b :: cs).Nodup := by
          rw [hcs] at hnodup
          exact hnodup
        have hbnotin : b ∉ cs := (List.nodup_cons.mp hnodupl).1
        refine goodSeg_congr ?_ ?_ ?_ hgold
        · intro x hx
          refine hprevO x
            (hmem_ne x (goodSeg_subset_nkeys hgold x hx)) ?_
          intro hvx
          rw [hvb] at hvx
          injection hvx with hvx
          subst hvx
          exact hbnotin hx
        · intro x hx
          rcases hx with hx | hx
          · injection hx with hx
            subst hx
            exact hnextO b (hmem_ne b (hsubn l b (hbmem b hvb)))
          · exact hnextO x (hmem_ne x (goodSeg_subset_nkeys hgold x hx))
        · intro hpn
          cases hpn
  have hgood' : goodSeg m' l none (m.fresh :: listChain m l) := by
    rw [goodSeg_cons]
    exact ⟨by rw [readCell_backPtr_none]; exact hgh, hpa, hgseg0⟩
  have hfnotin : m.fresh ∉ listChain m l :=
    fun hmem => hfreshn (hsubn l m.fresh hmem)
  have hnodup' : (m.fresh :: listChain m l).Nodup :=
    List.nodup_cons.mpr ⟨hfnotin, hnodup⟩
  obtain ⟨hchain', hgh2, hlc'⟩ := chain_eq_of_goodSeg hgood' hnodup'
  have hk' : (hkeys m').Nodup := by
    rw [hhk]
    exact hWF.1
  have hn' : (nkeys m').Nodup := by
    rw [hnk]
    exact List.nodup_cons.mpr ⟨hfreshn, hWF.2.1⟩
  have hdisj' : ∀ l1 l2, l1 ≠ l2 → ∀ x,
      x ∈ listChain m' l1 → x ∉ listChain m' l2 := by
    intro l1 l2 hne x hx1 hx2
    by_cases h1l : l1 = l
    · subst h1l
      rw [hlc'] at hx1
      rw [hother l2 (Ne.symm hne)] at hx2
      rcases List.mem_cons.mp hx1 with rfl | hx1
      · exact hfreshn (hsubn l2 m.fresh hx2)
      · exact WF_listChain_disjoint hWF hne x hx1 hx2
    · by_cases h2l : l2 = l
      · subst h2l
        rw [hother l1 h1l] at hx1
        rw [hlc'] at hx2
        rcases List.mem_cons.mp hx2 with rfl | hx2
        · exact hfreshn (hsubn l1 m.fresh hx1)
        · exact WF_listChain_disjoint hWF h1l x hx1 hx2
      · rw [hother l1 h1l] at hx1
        rw [hother l2 h2l] at hx2
        exact WF_listChain_disjoint hWF hne x hx1 hx2
  have hWF' : WF m' := by
    refine WF_intro hk' hn' ?_ ?_ ?_ ?_ ?_ ?_
    · intro k hk2
      rw [hhk] at hk2
      rw [hfr]
      exact Nat.lt_succ_of_lt (hWF.2.2.1 k hk2)
    · intro k hk2
      rw [hnk] at hk2
      rw [hfr]
      rcases List.mem_cons.mp hk2 with rfl | hk2
      · exact Nat.lt_succ_self m.fresh
      · exact Nat.lt_succ_of_lt (hWF.2.2.2.1 k hk2)
    · intro q hq
      have hgq : getHead m' q.1 = some q.2 := getHead_of_mem_heads hk' hq
      by_cases hql : q.1 = l
      · refine ⟨m.fresh :: listChain m l, ?_, hnodup', ?_⟩
        · rw [hql]
          exact hgood'
        · rw [hql] at hgq
          have h2 := hgq.symm.trans hgh
          injection h2 with h2
      · have hgq2 : getHead m q.1 = some q.2 := by
          rw [← hghO q.1 hql]
          exact hgq
        obtain ⟨_, hg2, hnd2, hv2⟩ := WF_chain hWF hgq2
        exact ⟨listChain m q.1, htrans q.1 q.2 hql hgq2, hnd2, hv2⟩
    · intro q1 hq1 q2 hq2 hne x hx1
      exact hdisj' q1.1 q2.1 hne x hx1
    · intro e he hnot
      have hge : getNode m' e.1 = some e.2 := getNode_of_mem_nodes hn' he
      by_cases hea : e.1 = m.fresh
      · exfalso
        refine hnot l ?_
        rw [hlc', hea]
        exact List.mem_cons_self _ _
      · by_cases hveb : v = some e.1
        · exfalso
          refine hnot l ?_
          rw [hlc']
          exact List.mem_cons_of_mem _ (hbmem e.1 hveb)
        · have hpe : prevOf m e.1 = some e.2.prev_next := by
            rw [← hprevO e.1 hea hveb, prevOf, hge]
            rfl
          obtain ⟨nde, hnde, hndep⟩ := prevOf_eq_some hpe
          have hun : nde.prev_next = none := by
            refine WF_unlinked hWF hnde ?_
            intro l''
            by_cases hl2 : l'' = l
            · subst hl2
              intro hmem
              exact hnot l''
                (by rw [hlc']; exact List.mem_cons_of_mem _ hmem)
            · intro hmem
              exact hnot l'' (by rw [hother l'' hl2]; exact hmem)
          rw [← hndep]
          exact hun
    · intro e he
      have hge : getNode m' e.1 = some e.2 := getNode_of_mem_nodes hn' he
      by_cases hea : e.1 = m.fresh
      · rw [hea, hga] at hge
        injection hge with hge
        rw [← hge]
        exact Nat.le_refl 1
      · have hce : countOf m e.1 = some e.2.strong_count := by
          rw [← hcntO e.1 hea, countOf, hge]
          rfl
        cases hnde : getNode m e.1 with
        | none =>
          rw [countOf, hnde] at hce
          simp at hce
        | some nde =>
          have h1 := WF_count hWF hnde
          rw [countOf, hnde] at hce
          simp only [Option.map_some'] at hce
          injection hce with hce
          rw [← hce]
          exact h1
  exact ⟨m', hrun, hWF', hlc', hother, hva, hca,
    fun x hx => hvalO x hx, fun x hx => hcntO x hx, hhk, hnk, hdr, hfr,
    hfreshn, hgh⟩

/-- Push a sequence of values into list `l`, keeping every returned
handle (the Rust test's `weak_list.new_elem(..)` loop). Returns the node
addresses in push order. -/
def pushAll (m : Mem α) (l : Nat) : List α → Option (Mem α × List Nat)
  | [] => some (m, [])
  | val :: vs =>
    match WeakList.new_elem m l val with
    | none => none
    | some (m1, a) =>
      match pushAll m1 l vs with
      | none => none
      | some (m2, as) => some (m2, a :: as)

/-- Pushing a sequence of values prepends the new nodes one by one: the
chain ends up holding the new addresses in reverse push order in front of
the old chain, with every new node holding its value at count 1 and all
other state untouched. -/
theorem pushAll_spec {α : Type} {l : Nat} :
    ∀ (vs : List α) (m : Mem α) (v : Option Nat), WF m →
    getHead m l = some v →
    ∃ m2 as, pushAll m l vs = some (m2, as) ∧ WF m2 ∧
      as.length = vs.length ∧
      listChain m2 l = as.reverse ++ listChain m l ∧
      (∀ l', l' ≠ l → listChain m2 l' = listChain m l') ∧
      (∀ p ∈ as.zip vs, valOf m2 p.1 = some p.2 ∧ countOf m2 p.1 = some 1) ∧
      (∀ x, x ∉ as → valOf m2 x = valOf m x) ∧
      (∀ x, x ∉ as → countOf m2 x = countOf m x) ∧
      hkeys m2 = hkeys m ∧ nkeys m2 = as.reverse ++ nkeys m ∧
      m2.dropped = m.dropped ∧ (∀ x ∈ as, x ∉ nkeys m) ∧ as.Nodup
  | [], m, v, hWF, hh => ⟨m, [], rfl, hWF, rfl, by simp, fun l' _ => rfl,
      fun p hp => absurd hp (List.not_mem_nil p), fun x _ => rfl,
      fun x _ => rfl, rfl, by simp, rfl,
      fun x hx => absurd hx (List.not_mem_nil x), List.nodup_nil⟩
  | val :: vs, m, v, hWF, hh => by
    obtain ⟨m1, hrun, hWF1, hlc1, hother1, hval1, hcnt1, hvalO1, hcntO1,
      hhk1, hnk1, hdr1, hfr1, hfag, hgh1⟩ := new_elem_spec hWF hh val
    obtain ⟨m2, as, hpush, hWF2, hlen, hlc2, hother2, hzip, hvalO2, hcntO2,
      hhk2, hnk2, hdr2, hnews, hnodup2⟩ :=
      pushAll_spec vs m1 (some m.fresh) hWF1 hgh1
    have hanotin : m.fresh ∉ as := by
      intro hmem
      refine hnews m.fresh hmem ?_
      rw [hnk1]
      exact List.mem_cons_self _ _
    refine ⟨m2, m.fresh :: as, ?_, hWF2, ?_, ?_, ?_, ?_, ?_, ?_, ?_, ?_, ?_,
      ?_, ?_⟩
    · simp only [pushAll, hrun, hpush]
    · simp [hlen]
    · rw [hlc2, hlc1]
      simp
    · intro l' hne
      rw [hother2 l' hne, hother1 l' hne]
    · intro p hp
      rw [List.zip_cons_cons] at hp
      rcases List.mem_cons.mp hp with rfl | hp
      · refine ⟨?_, ?_⟩
        · show valOf m2 m.fresh = some val
          rw [hvalO2 m.fresh hanotin]
          exact hval1
        · show countOf m2 m.fresh = some 1
          rw [hcntO2 m.fresh hanotin]
          exact hcnt1
      · exact hzip p hp
    · intro x hx
      have hxa : x ≠ m.fresh :=
        fun he => hx (by rw [he]; exact List.mem_cons_self _ _)
      have hxas : x ∉ as := fun hmem => hx (List.mem_cons_of_mem _ hmem)
      rw [hvalO2 x hxas]
      exact hvalO1 x hxa
    · intro x hx
      have hxa : x ≠ m.fresh :=
        fun he => hx (by rw [he]; exact List.mem_cons_self _ _)
      have hxas : x ∉ as := fun hmem => hx (List.mem_cons_of_mem _ hmem)
      rw [hcntO2 x hxas]
      exact hcntO1 x hxa
    · rw [hhk2, hhk1]
    · rw [hnk2, hnk1]
      simp
    · rw [hdr2, hdr1]
    · intro x hx
      rcases List.mem_cons.mp hx with rfl | hx
      · exact hfag
      · intro hmem
        refine hnews x hx ?_
        rw [hnk1]
        exact List.mem_cons_of_mem _ hmem
    · exact List.nodup_cons.mpr ⟨hanotin, hnodup2⟩

/-- Every chain member is an allocated node. -/
theorem listChain_subset_nkeys {m : Mem α} (hWF : WF m) (l x : Nat)
    (hx : x ∈ listChain m l) : x ∈ nkeys m := by
  cases hh : getHead m l with
  | none => rw [listChain, hh] at hx; cases hx
  | some v =>
    obtain ⟨_, hg, _, _⟩ := WF_chain hWF hh
    exact goodSeg_subset_nkeys hg x hx

/-- On a well-formed heap every strong count is `1` or at least `2`. -/
theorem count_pos_cases {m : Mem α} (hWF : WF m) {a : Nat} {nd : Node α}
    (hnd : getNode m a = some nd) :
    nd.strong_count = 1 ∨ ∃ c, nd.strong_count = Nat.succ (Nat.succ c) := by
  have h1 := WF_count hWF hnd
  cases hc : nd.strong_count with
  | zero => rw [hc] at h1; cases h1
  | succ k =>
    cases k with
    | zero => exact Or.inl rfl
    | succ c => exact Or.inr ⟨c, rfl⟩

/-- Rewriting only the strong count of an allocated node to a positive
value keeps the heap well-formed and every chain, link and value intact. -/
theorem WF_setNode_count {m : Mem α} (hWF : WF m) {a : Nat} {nd : Node α}
    (hnd : getNode m a = some nd) {k : Nat} (hk : 1 ≤ k) :
    WF (setNode m a { nd with strong_count := k }) ∧
    (∀ l, listChain (setNode m a { nd with strong_count := k }) l
      = listChain m l) ∧
    countOf (setNode m a { nd with strong_count := k }) a = some k ∧
    (∀ x, x ≠ a →
      countOf (setNode m a { nd with strong_count := k }) x = countOf m x) ∧
    (∀ x, valOf (setNode m a { nd with strong_count := k }) x = valOf m x) ∧
    (setNode m a { nd with strong_count := k }).heads = m.heads ∧
    (setNode m a { nd with strong_count := k }).nodes.map stripC
      = m.nodes.map stripC ∧
    (setNode m a { nd with strong_count := k }).dropped = m.dropped ∧
    (setNode m a { nd with strong_count := k }).fresh = m.fresh := by
  have hs : (setNode m a { nd with strong_count := k }).nodes.map stripC
      = m.nodes.map stripC := map_stripC_aset hnd rfl rfl rfl
  have hcnt : ∀ e ∈ (setNode m a { nd with strong_count := k }).nodes,
      1 ≤ e.2.strong_count := by
    intro e he
    rcases mem_aset hWF.2.1 he with ⟨_, he2, _⟩ | ⟨he1, _⟩
    · rw [he2]
      exact hk
    · exact hWF.2.2.2.2.2.2.2.2 e he1
  have hh0 : (setNode m a { nd with strong_count := k }).heads = m.heads :=
    rfl
  have hf0 : (setNode m a { nd with strong_count := k }).fresh = m.fresh :=
    rfl
  obtain ⟨hWF', hlc'⟩ := WF_of_links_eq hh0 hs hf0 hcnt hWF
  refine ⟨hWF', hlc', ?_, ?_, ?_, rfl, hs, rfl, rfl⟩
  · rw [countOf_setNode_self hnd]
  · intro x hx
    exact countOf_setNode_ne (fun he => hx he.symm) _
  · intro x
    by_cases hx : x = a
    · subst hx
      rw [valOf_setNode_self hnd, valOf, hnd]
      rfl
    · exact valOf_setNode_ne (fun he => hx he.symm) _

/-- Dropping the last handle (count 1): the node is detached, its value is
destroyed exactly once (appended to the drop log) and its storage freed,
while every other node and list survives untouched. -/
theorem drop_last_spec {m : Mem α} {a : Nat} {nd : Node α}
    (hWF : WF m) (hnd : getNode m a = some nd) (h1 : nd.strong_count = 1) :
    ∃ m', Handle.drop m a = some m' ∧ WF m' ∧
      m'.dropped = m.dropped ++ [nd.value] ∧ getNode m' a = none ∧
      hkeys m' = hkeys m ∧ m'.fresh = m.fresh ∧
      (∀ x, x ≠ a → countOf m' x = countOf m x) ∧
      (∀ x, x ≠ a → valOf m' x = valOf m x) ∧
      (∀ l, a ∉ listChain m' l) ∧
      (∀ l, a ∉ listChain m l → listChain m' l = listChain m l) ∧
      (∀ l xs ys, listChain m l = xs ++ a :: ys → a ∉ xs → a ∉ ys →
        listChain m' l = xs ++ ys) := by
  obtain ⟨m1, hdet, hWF1, hnd1, hnotin1, hUnch1, hSplit1, hk1, hn1, hd1, hf1,
    hc1, hv1, _⟩ := detach_total hWF hnd
  obtain ⟨hWF2, hlc2⟩ :=
    remove_unlinked hWF1 hnd1 hnotin1 (m1.dropped ++ [nd.value])
  refine ⟨memRemove m1 a (m1.dropped ++ [nd.value]), ?_, hWF2, ?_, ?_, ?_,
    ?_, ?_, ?_, ?_, ?_, ?_⟩
  · simp only [Handle.drop, hnd, h1, Handle.detach, hdet, freeNode, hnd1]
    rfl
  · show m1.dropped ++ [nd.value] = m.dropped ++ [nd.value]
    rw [hd1]
  · exact alook_adel_self a m1.nodes
  · show hkeys m1 = hkeys m
    exact hk1
  · show m1.fresh = m.fresh
    exact hf1
  · intro x hx
    rw [← hc1 x]
    show (alook x (adel a m1.nodes)).map Node.strong_count = countOf m1 x
    rw [alook_adel_ne hx]
    rfl
  · intro x hx
    rw [← hv1 x]
    show (alook x (adel a m1.nodes)).map Node.value = valOf m1 x
    rw [alook_adel_ne hx]
    rfl
  · intro l
    rw [hlc2 l]
    exact hnotin1 l
  · intro l hl
    rw [hlc2 l]
    exact hUnch1 l hl
  · intro l xs ys hsp hxs hys
    rw [hlc2 l]
    exact hSplit1 l xs ys hsp hxs hys

/-- Dropping a handle while others survive (count at least 2): only the
strong count decrements; chains, links, values and the drop log are
untouched. -/
theorem drop_keep_spec {m : Mem α} {a : Nat} {nd : Node α} {c : Nat}
    (hWF : WF m) (hnd : getNode m a = some nd)
    (hc : nd.strong_count = Nat.succ (Nat.succ c)) :
    Handle.drop m a = some (setNode m a { nd with
      strong_count := Nat.succ c }) ∧
    WF (setNode m a { nd with strong_count := Nat.succ c }) ∧
    (∀ l, listChain (setNode m a { nd with strong_count := Nat.succ c }) l
      = listChain m l) ∧
    countOf (setNode m a { nd with strong_count := Nat.succ c }) a
      = some (Nat.succ c) ∧
    (∀ x, x ≠ a → countOf (setNode m a { nd with
      strong_count := Nat.succ c }) x = countOf m x) ∧
    (∀ x, valOf (setNode m a { nd with strong_count := Nat.succ c }) x
      = valOf m x) ∧
    (setNode m a { nd with strong_count := Nat.succ c }).heads = m.heads ∧
    (setNode m a { nd with strong_count := Nat.succ c }).nodes.map stripC
      = m.nodes.map stripC ∧
    (setNode m a { nd with strong_count := Nat.succ c }).dropped
      = m.dropped := by
  obtain ⟨hWF', hlc', hca, hcx, hvx, hhd, hst, hdr, _⟩ :=
    WF_setNode_count hWF hnd (Nat.succ_le_succ (Nat.zero_le c))
  refine ⟨?_, hWF', hlc', hca, hcx, hvx, hhd, hst, hdr⟩
  simp only [Handle.drop, hnd, hc, Nat.succ_sub_one]

/-- Creating a fresh list: the new head slot is empty and every existing
list, node and chain is untouched; well-formedness is preserved. -/
theorem new_list_spec {m : Mem α} (hWF : WF m) :
    WF (WeakList.new m).1 ∧ (WeakList.new m).2 = m.fresh ∧
    getHead (WeakList.new m).1 m.fresh = some none ∧
    listChain (WeakList.new m).1 m.fresh = [] ∧
    (∀ l, l ≠ m.fresh → getHead (WeakList.new m).1 l = getHead m l) ∧
    (∀ l, l ≠ m.fresh → listChain (WeakList.new m).1 l = listChain m l) ∧
    (WeakList.new m).1.nodes = m.nodes ∧
    (WeakList.new m).1.dropped = m.dropped := by
  have hgf : getHead (WeakList.new m).1 m.fresh = some none := by
    show alook m.fresh ((m.fresh, none) :: m.heads) = some none
    simp [alook]
  have hgO : ∀ l, l ≠ m.fresh → getHead (WeakList.new m).1 l = getHead m l := by
    intro l hl
    show alook l ((m.fresh, none) :: m.heads) = getHead m l
    simp only [alook]
    rw [if_neg (fun he => hl he.symm)]
    rfl
  have hprev0 : ∀ x, prevOf (WeakList.new m).1 x = prevOf m x := fun _ => rfl
  have hnext0 : ∀ x, nextOf (WeakList.new m).1 x = nextOf m x := fun _ => rfl
  have hiss0 : ∀ x, (getNode (WeakList.new m).1 x).isSome
      = (getNode m x).isSome := fun _ => rfl
  have hchn : ∀ v, chain (WeakList.new m).1 v = chain m v :=
    fun v => chainF_congr_links hnext0 hiss0 m.nodes.length v
  have hlcO : ∀ l, l ≠ m.fresh →
      listChain (WeakList.new m).1 l = listChain m l := by
    intro l hl
    cases hgl : getHead m l with
    | none => simp only [listChain, hgO l hl, hgl]
    | some v => simp only [listChain, hgO l hl, hgl, hchn v]
  have hlcF : listChain (WeakList.new m).1 m.fresh = [] := by
    simp only [listChain, hgf]
    simp [chain, chainF_none]
  have hfreshh : m.fresh ∉ hkeys m := fun hmem =>
    absurd (hWF.2.2.1 _ hmem) (lt_irrefl _)
  have hkeq : hkeys (WeakList.new m).1 = m.fresh :: hkeys m := rfl
  have hWF' : WF (WeakList.new m).1 := by
    refine WF_intro ?_ hWF.2.1 ?_ ?_ ?_ ?_ ?_ hWF.2.2.2.2.2.2.2.2
    · rw [hkeq]
      exact List.nodup_cons.mpr ⟨hfreshh, hWF.1⟩
    · intro k hk2
      rw [hkeq] at hk2
      show k < m.fresh + 1
      rcases List.mem_cons.mp hk2 with rfl | hk2
      · exact Nat.lt_succ_self m.fresh
      · exact Nat.lt_succ_of_lt (hWF.2.2.1 k hk2)
    · intro k hk2
      show k < m.fresh + 1
      exact Nat.lt_succ_of_lt (hWF.2.2.2.1 k hk2)
    · intro q hq
      rcases List.mem_cons.mp hq with rfl | hq
      · refine ⟨[], ?_, List.nodup_nil, rfl⟩
        rw [goodSeg_nil, readCell_backPtr_none]
        exact hgf
      · have hne : q.1 ≠ m.fresh := fun he =>
          hfreshh (he ▸ List.mem_map_of_mem Prod.fst hq)
        have hgq : getHead m q.1 = some q.2 := getHead_of_mem_heads hWF.1 hq
        obtain ⟨_, hg2, hnd2, hv2⟩ := WF_chain hWF hgq
        exact ⟨listChain m q.1,
          goodSeg_congr (fun x _ => hprev0 x) (fun x _ => hnext0 x)
            (fun _ => hgO q.1 hne) hg2, hnd2, hv2⟩
    · intro q1 hq1 q2 hq2 hne x hx1
      by_cases h1f : q1.1 = m.fresh
      · rw [h1f, hlcF] at hx1
        cases hx1
      · rw [hlcO q1.1 h1f] at hx1
        by_cases h2f : q2.1 = m.fresh
        · rw [h2f, hlcF]
          exact List.not_mem_nil x
        · rw [hlcO q2.1 h2f]
          exact WF_listChain_disjoint hWF hne x hx1
    · intro e he hnot
      have hge : getNode m e.1 = some e.2 := getNode_of_mem_nodes hWF.2.1 he
      refine WF_unlinked hWF hge ?_
      intro l
      by_cases hlf : l = m.fresh
      · subst hlf
        rw [listChain, getHead, alook_eq_none_of_not_mem hfreshh]
        exact List.not_mem_nil e.1
      · rw [← hlcO l hlf]
        exact hnot l
  exact ⟨hWF', rfl, hgf, hlcF, hgO, hlcO, rfl, rfl⟩

/-- Pointwise value facts along a zip give a map equation. -/
theorem valMap_of_zip {α : Type} :
    ∀ {as : List Nat} {vs : List α} (m2 : Mem α), as.length = vs.length →
    (∀ p ∈ as.zip vs, valOf m2 p.1 = some p.2) →
    as.map (valOf m2) = vs.map some
  | [], [], _, _, _ => rfl
  | [], _ :: _, _, h, _ => by simp at h
  | _ :: _, [], _, h, _ => by simp at h
  | a :: as, v :: vs, m2, h, hz => by
    have h1 : valOf m2 a = some v :=
      hz (a, v) (by rw [List.zip_cons_cons]; exact List.mem_cons_self _ _)
    have hlen : as.length = vs.length := by simpa using h
    have h2 := valMap_of_zip m2 hlen
      (fun p hp => hz p
        (List.zip_cons_cons ▸ List.mem_cons_of_mem (a, v) hp))
    rw [List.map_cons, List.map_cons, h1, h2]

/-- C4: pushing `v1 .. vn` into a fresh (empty) list and then calling
`upgrade_all` yields one handle per pushed value in exactly reverse push
order, each still holding its value, and mutates no head pointer and no
link field of any node (only strong counts may differ). -/
theorem c4_upgrade_all_reverse_of_pushes {m : Mem α} {l : Nat}
    (hWF : WF m) (hh : getHead m l = some none) (vs : List α) :
    ∃ m2 as m3, pushAll m l vs = some (m2, as) ∧
      as.length = vs.length ∧
      WeakList.upgrade_all m2 l = some (m3, as.reverse) ∧
      as.reverse.map (valOf m3) = vs.reverse.map some ∧
      m3.heads = m2.heads ∧
      m3.nodes.map stripC = m2.nodes.map stripC := by
  obtain ⟨m2, as, hpush, hWF2, hlen, hlc2, _, hzip, _, _, hhk2, _, _, _, _⟩ :=
    pushAll_spec vs m none hWF hh
  have hempty : listChain m l = [] := by
    simp only [listChain, hh]
    simp [chain, chainF_none]
  have hlmem : l ∈ hkeys m2 := by
    rw [hhk2]
    exact getHead_mem_hkeys hh
  obtain ⟨v2, hh2⟩ :=
    Option.isSome_iff_exists.mp (alook_isSome_of_mem hlmem)
  obtain ⟨m3, hup, hWF3, hhd3, hst3, _, _, _, _, _, hval3⟩ :=
    upgrade_all_spec hWF2 hh2
  have hlc2' : listChain m2 l = as.reverse := by
    rw [hlc2, hempty, List.append_nil]
  refine ⟨m2, as, m3, hpush, hlen, ?_, ?_, hhd3, hst3⟩
  · rw [← hlc2']
    exact hup
  · have hmap2 : as.map (valOf m2) = vs.map some :=
      valMap_of_zip m2 hlen (fun p hp => (hzip p hp).1)
    have hmap3 : as.map (valOf m3) = as.map (valOf m2) :=
      List.map_congr_left (fun x _ => hval3 x)
    rw [List.map_reverse, List.map_reverse, hmap3, hmap2]

/-- C5: `take_all` returns exactly the handle sequence `upgrade_all`
would return and empties the list: an immediately following
`upgrade_all` yields the empty sequence, while every returned handle
still dereferences to its original value. -/
theorem c5_take_all_empties_list {m : Mem α} {l : Nat} {v : Option Nat}
    (hWF : WF m) (hh : getHead m l = some v) :
    ∃ mu m' hs, WeakList.upgrade_all m l = some (mu, hs) ∧
      WeakList.take_all m l = some (m', hs) ∧
      listChain m' l = [] ∧
      WeakList.upgrade_all m' l = some (m', []) ∧
      (∀ x ∈ hs, Handle.deref m' x = Handle.deref m x ∧
        (Handle.deref m' x).isSome) := by
  obtain ⟨mu, hup, hWFu, _, _, _, _, hLCu, _, _, hvu⟩ := upgrade_all_spec hWF hh
  obtain ⟨m', htake, hWF', hlc', hother', hd', hn', hk', hf', hcin', hcout',
    hv'⟩ := take_all_spec hWF hh
  have hlmem : l ∈ hkeys m' := by
    rw [hk']
    exact getHead_mem_hkeys hh
  obtain ⟨v', hhv'⟩ := Option.isSome_iff_exists.mp (alook_isSome_of_mem hlmem)
  obtain ⟨_, _, _, hv2⟩ := WF_chain hWF' hhv'
  have hvn : v' = none := by
    rw [hv2, hlc']
    rfl
  have hgv : getHead m' l = some v' := hhv'
  rw [hvn] at hgv
  refine ⟨mu, m', listChain m l, hup, htake, hlc', ?_, ?_⟩
  · simp only [WeakList.upgrade_all, hgv]
    rfl
  · intro x hx
    have hxk : x ∈ nkeys m := listChain_subset_nkeys hWF l x hx
    refine ⟨hv' x, ?_⟩
    have hxk' : x ∈ nkeys m' := by
      rw [hn']
      exact hxk
    obtain ⟨ndx, hndx⟩ :=
      Option.isSome_iff_exists.mp (alook_isSome_of_mem hxk')
    have hndx2 : getNode m' x = some ndx := hndx
    show ((getNode m' x).map Node.value).isSome = true
    rw [hndx2]
    rfl

/-- C6: `try_unwrap` always detaches first; with the heap well-formed it
succeeds exactly at strong count 1, deallocating the node and returning
the bare value without logging a drop, while at count at least 2 it
returns the handle with node, value and count unchanged apart from the
detach. -/
theorem c6_try_unwrap_detaches_then_unwraps {m : Mem α} {a : Nat}
    {nd : Node α} (hWF : WF m) (hnd : getNode m a = some nd) :
    ∃ m1, Node.unlink m a = some m1 ∧ WF m1 ∧
      (∀ l, a ∉ listChain m1 l) ∧
      (∀ l, a ∉ listChain m l → listChain m1 l = listChain m l) ∧
      (nd.strong_count = 1 →
        Handle.try_unwrap m a
          = some (memRemove m1 a m1.dropped, Sum.inl nd.value) ∧
        getNode (memRemove m1 a m1.dropped) a = none ∧
        WF (memRemove m1 a m1.dropped) ∧
        (memRemove m1 a m1.dropped).dropped = m.dropped) ∧
      (∀ c, nd.strong_count = Nat.succ (Nat.succ c) →
        Handle.try_unwrap m a = some (m1, Sum.inr a) ∧
        getNode m1 a = some { nd with prev_next := none } ∧
        countOf m1 a = some nd.strong_count ∧
        valOf m1 a = some nd.value ∧ m1.dropped = m.dropped) := by
  obtain ⟨m1, hdet, hWF1, hnd1, hnotin1, hUnch1, hSplit1, hk1, hn1, hd1, hf1,
    hc1, hv1, _⟩ := detach_total hWF hnd
  refine ⟨m1, hdet, hWF1, hnotin1, hUnch1, ?_, ?_⟩
  · intro h1
    have hfacts := remove_unlinked hWF1 hnd1 hnotin1 m1.dropped
    refine ⟨?_, ?_, hfacts.1, ?_⟩
    · simp only [Handle.try_unwrap, Handle.detach, hdet, hnd1, h1]
      rfl
    · exact alook_adel_self a m1.nodes
    · exact hd1
  · intro c hc
    refine ⟨?_, hnd1, ?_, ?_, hd1⟩
    · simp only [Handle.try_unwrap, Handle.detach, hdet, hnd1, hc]
    · rw [hc1 a, countOf, hnd]
      rfl
    · rw [hv1 a, valOf, hnd]
      rfl

/-- C7: `clear` removes every entry from the list's chain and drops no
value at all: the drop log, every strong count and every value are
exactly as before, and only this list's chain is emptied. -/
theorem c7_clear_drops_no_values {m : Mem α} {l : Nat} {v : Option Nat}
    (hWF : WF m) (hh : getHead m l = some v) :
    ∃ m', WeakList.clear m l = some m' ∧ WF m' ∧
      m'.dropped = m.dropped ∧
      listChain m' l = [] ∧
      (∀ l', l' ≠ l → listChain m' l' = listChain m l') ∧
      (∀ x, countOf m' x = countOf m x) ∧
      (∀ x, valOf m' x = valOf m x) := by
  obtain ⟨m', hclear, hWF', hlc', hother', hd', hn', hk', hf', hc', hv'⟩ :=
    clear_spec hWF hh
  exact ⟨m', hclear, hWF', hd', hlc', hother', hc', hv'⟩

/-- C3: dropping the last live handle of a node destroys the value
exactly once (one new entry in the drop log), removes the node from its
list and frees its storage, so no later `upgrade_all` can return it;
dropping a handle while others survive only decrements the strong count
and changes nothing else. -/
theorem c3_last_handle_drop_destroys_once {m : Mem α} {a : Nat}
    {nd : Node α} (hWF : WF m) (hnd : getNode m a = some nd) :
    (nd.strong_count = 1 →
      ∃ m', Handle.drop m a = some m' ∧ WF m' ∧
        m'.dropped = m.dropped ++ [nd.value] ∧
        getNode m' a = none ∧
        (∀ l, a ∉ listChain m' l) ∧
        (∀ l xs ys, listChain m l = xs ++ a :: ys → a ∉ xs → a ∉ ys →
          listChain m' l = xs ++ ys) ∧
        (∀ l v' m2 hs, getHead m' l = some v' →
          WeakList.upgrade_all m' l = some (m2, hs) → a ∉ hs)) ∧
    (∀ c, nd.strong_count = Nat.succ (Nat.succ c) →
      Handle.drop m a
        = some (setNode m a { nd with strong_count := Nat.succ c }) ∧
      countOf (setNode m a { nd with strong_count := Nat.succ c }) a
        = some (Nat.succ c) ∧
      (∀ l, listChain (setNode m a { nd with strong_count := Nat.succ c }) l
        = listChain m l) ∧
      (∀ x, x ≠ a → countOf (setNode m a
        { nd with strong_count := Nat.succ c }) x = countOf m x) ∧
      (∀ x, valOf (setNode m a { nd with strong_count := Nat.succ c }) x
        = valOf m x) ∧
      (setNode m a { nd with strong_count := Nat.succ c }).dropped
        = m.dropped) := by
  constructor
  · intro h1
    obtain ⟨m', hdrop, hWF', hdr', hga', hk', hf', hcO, hvO, hnotin',
      hUnch', hSplit'⟩ := drop_last_spec hWF hnd h1
    refine ⟨m', hdrop, hWF', hdr', hga', hnotin', hSplit', ?_⟩
    intro l v' m2 hs hh2 hup2 hmem
    obtain ⟨m3, hup3, _, _, _, _, _, _, _, _, _⟩ := upgrade_all_spec hWF' hh2
    rw [hup2] at hup3
    injection hup3 with hup3
    injection hup3 with he1 he2
    rw [he2] at hmem
    exact hnotin' l hmem
  · intro c hc
    obtain ⟨hdrop, hWF', hlc', hca, hcx, hvx, hhd, hst, hdr⟩ :=
      drop_keep_spec hWF hnd hc
    exact ⟨hdrop, hca, hlc', hcx, hvx, hdr⟩

/-- C8: pushing a value and immediately dropping the returned handle is
observably a no-op on the list: the value is dropped exactly once, the
fresh node is freed, every chain and every other node is exactly as
before, and a subsequent `upgrade_all` returns the pre-push handles. -/
theorem c8_push_then_drop_is_noop {m : Mem α} {l : Nat} {v : Option Nat}
    (hWF : WF m) (hh : getHead m l = some v) (val : α) :
    ∃ m1 m', WeakList.new_elem m l val = some (m1, m.fresh) ∧
      Handle.drop m1 m.fresh = some m' ∧ WF m' ∧
      m'.dropped = m.dropped ++ [val] ∧
      getNode m' m.fresh = none ∧
      (∀ l', listChain m' l' = listChain m l') ∧
      (∀ x, x ≠ m.fresh → countOf m' x = countOf m x) ∧
      (∀ x, x ≠ m.fresh → valOf m' x = valOf m x) ∧
      (∀ m2 hs, WeakList.upgrade_all m' l = some (m2, hs) →
        hs = listChain m l) := by
  obtain ⟨m1, hrun, hWF1, hlc1, hother1, hval1, hcnt1, hvalO1, hcntO1,
    hhk1, hnk1, hdr1, hfr1, hfag, hgh1⟩ := new_elem_spec hWF hh val
  have hnode : ∃ nd1, getNode m1 m.fresh = some nd1 ∧
      nd1.strong_count = 1 ∧ nd1.value = val := by
    rcases optionCases (getNode m1 m.fresh) with hg | ⟨nd1, hg⟩
    · rw [countOf, hg] at hcnt1
      cases hcnt1
    · refine ⟨nd1, hg, ?_, ?_⟩
      · rw [countOf, hg] at hcnt1
        simp only [Option.map_some'] at hcnt1
        injection hcnt1 with h2
      · rw [valOf, hg] at hval1
        simp only [Option.map_some'] at hval1
        injection hval1 with h2
  obtain ⟨nd1, hg1, hcnt1', hval1'⟩ := hnode
  obtain ⟨m', hdrop, hWF', hdr', hga', hk', hf', hcO, hvO, hnotin', hUnch',
    hSplit'⟩ := drop_last_spec hWF1 hg1 hcnt1'
  have hfreshNotOld : ∀ l'', m.fresh ∉ listChain m l'' := fun l'' hmem =>
    hfag (listChain_subset_nkeys hWF l'' m.fresh hmem)
  have hlcAll : ∀ l', listChain m' l' = listChain m l' := by
    intro l'
    by_cases hl : l' = l
    · subst hl
      have h2 := hSplit' l' [] (listChain m l') (by rw [hlc1]; rfl)
        (List.not_mem_nil _) (hfreshNotOld l')
      rw [h2]
      rfl
    · have h3 : m.fresh ∉ listChain m1 l' := by
        rw [hother1 l' hl]
        exact hfreshNotOld l'
      rw [hUnch' l' h3, hother1 l' hl]
  refine ⟨m1, m', hrun, hdrop, hWF', ?_, hga', hlcAll, ?_, ?_, ?_⟩
  · rw [hdr', hdr1, hval1']
  · intro x hx
    rw [hcO x hx]
    exact hcntO1 x hx
  · intro x hx
    rw [hvO x hx]
    exact hvalO1 x hx
  · intro m2 hs hup2
    have hlmem : l ∈ hkeys m' := by
      rw [hk', hhk1]
      exact getHead_mem_hkeys hh
    obtain ⟨v2, hv2⟩ := Option.isSome_iff_exists.mp (alook_isSome_of_mem hlmem)
    have hv2' : getHead m' l = some v2 := hv2
    obtain ⟨m3, hup3, _, _, _, _, _, _, _, _, _⟩ := upgrade_all_spec hWF' hv2'
    rw [hup2] at hup3
    injection hup3 with hup3
    injection hup3 with he1 he2
    rw [he2, hlcAll l]

/-- C10: every public operation, run on a well-formed heap at an
allocated list or node, succeeds and preserves the well-formedness
invariant `WF` (per-list chains compute to finite duplicate-free node
lists whose back pointers match, counts stay at least 1). -/
theorem c10_public_ops_preserve_invariant {m : Mem α} (hWF : WF m) :
    WF (WeakList.new m).1 ∧
    (∀ l v val, getHead m l = some v →
      ∃ m', WeakList.new_elem m l val = some (m', m.fresh) ∧ WF m') ∧
    (∀ a nd, getNode m a = some nd →
      ∃ m', Handle.clone m a = some m' ∧ WF m') ∧
    (∀ a nd, getNode m a = some nd →
      ∃ m', Handle.drop m a = some m' ∧ WF m') ∧
    (∀ a nd, getNode m a = some nd →
      ∃ m', Handle.detach m a = some m' ∧ WF m') ∧
    (∀ a nd, getNode m a = some nd →
      ∃ m' r, Handle.try_unwrap m a = some (m', r) ∧ WF m') ∧
    (∀ l v, getHead m l = some v →
      ∃ m' hs, WeakList.upgrade_all m l = some (m', hs) ∧ WF m') ∧
    (∀ l v, getHead m l = some v →
      ∃ m' hs, WeakList.take_all m l = some (m', hs) ∧ WF m') ∧
    (∀ l v, getHead m l = some v →
      ∃ m', WeakList.clear m l = some m' ∧ WF m') := by
  refine ⟨(new_list_spec hWF).1, ?_, ?_, ?_, ?_, ?_, ?_, ?_, ?_⟩
  · intro l v val hh
    obtain ⟨m', hrun, hWF', _⟩ := new_elem_spec hWF hh val
    exact ⟨m', hrun, hWF'⟩
  · intro a nd hnd
    obtain ⟨hWFc, _⟩ := WF_setNode_count hWF hnd
      (Nat.succ_le_succ (Nat.zero_le nd.strong_count))
    refine ⟨_, ?_, hWFc⟩
    simp [Handle.clone, hnd]
  · intro a nd hnd
    rcases count_pos_cases hWF hnd with h1 | ⟨c, hc⟩
    · obtain ⟨m', hdrop, hWF', _, _, _, _, _, _, _, _, _⟩ :=
        drop_last_spec hWF hnd h1
      exact ⟨m', hdrop, hWF'⟩
    · obtain ⟨hdrop, hWF', _, _, _, _, _, _, _⟩ := drop_keep_spec hWF hnd hc
      exact ⟨_, hdrop, hWF'⟩
  · intro a nd hnd
    obtain ⟨m1, hdet, hWF1, _⟩ := detach_total hWF hnd
    exact ⟨m1, hdet, hWF1⟩
  · intro a nd hnd
    obtain ⟨m1, hdet, hWF1, hnd1, hnotin1, _, _, _, _, _, _, _, _, _⟩ :=
      detach_total hWF hnd
    rcases count_pos_cases hWF hnd with h1 | ⟨c, hc⟩
    · refine ⟨memRemove m1 a m1.dropped, Sum.inl nd.value, ?_,
        (remove_unlinked hWF1 hnd1 hnotin1 m1.dropped).1⟩
      simp only [Handle.try_unwrap, Handle.detach, hdet, hnd1, h1]
      rfl
    · refine ⟨m1, Sum.inr a, ?_, hWF1⟩
      simp only [Handle.try_unwrap, Handle.detach, hdet, hnd1, hc]
  · intro l v hh
    obtain ⟨m', hup, hWF', _⟩ := upgrade_all_spec hWF hh
    exact ⟨m', listChain m l, hup, hWF'⟩
  · intro l v hh
    obtain ⟨m', htake, hWF', _⟩ := take_all_spec hWF hh
    exact ⟨m', listChain m l, htake, hWF'⟩
  · intro l v hh
    obtain ⟨m', hclear, hWF', _⟩ := clear_spec hWF hh
    exact ⟨m', hclear, hWF'⟩

/-- Node 1 as allocated in `memL1` (value 10, count 1, first of list 0). -/
def nodeA1 : Node Nat :=
  { value := 10, strong_count := 1, prev_next := some (CellId.headCell 0),
    next := none }

/-- Witness for C3 at a concrete heap: one pushed value (node 1, count 1)
in list 0. -/
theorem c3_last_handle_drop_destroys_once_witness :
    (WF memL1 ∧ getNode memL1 1 = some nodeA1) ∧
    ((nodeA1.strong_count = 1 →
      ∃ m', Handle.drop memL1 1 = some m' ∧ WF m' ∧
        m'.dropped = memL1.dropped ++ [nodeA1.value] ∧
        getNode m' 1 = none ∧
        (∀ l, 1 ∉ listChain m' l) ∧
        (∀ l xs ys, listChain memL1 l = xs ++ 1 :: ys → 1 ∉ xs → 1 ∉ ys →
          listChain m' l = xs ++ ys) ∧
        (∀ l v' m2 hs, getHead m' l = some v' →
          WeakList.upgrade_all m' l = some (m2, hs) → 1 ∉ hs)) ∧
    (∀ c, nodeA1.strong_count = Nat.succ (Nat.succ c) →
      Handle.drop memL1 1
        = some (setNode memL1 1 { nodeA1 with strong_count := Nat.succ c }) ∧
      countOf (setNode memL1 1 { nodeA1 with strong_count := Nat.succ c }) 1
        = some (Nat.succ c) ∧
      (∀ l, listChain (setNode memL1 1
        { nodeA1 with strong_count := Nat.succ c }) l = listChain memL1 l) ∧
      (∀ x, x ≠ 1 → countOf (setNode memL1 1
        { nodeA1 with strong_count := Nat.succ c }) x = countOf memL1 x) ∧
      (∀ x, valOf (setNode memL1 1
        { nodeA1 with strong_count := Nat.succ c }) x = valOf memL1 x) ∧
      (setNode memL1 1 { nodeA1 with strong_count := Nat.succ c }).dropped
        = memL1.dropped)) :=
  ⟨⟨by decide, by decide⟩,
    c3_last_handle_drop_destroys_once (by decide) (by decide)⟩

/-- Witness for C4 at a concrete heap: pushing 10 then 20 into the empty
list 0 and upgrading. -/
theorem c4_upgrade_all_reverse_of_pushes_witness :
    (WF memL ∧ getHead memL 0 = some none) ∧
    (∃ m2 as m3, pushAll memL 0 [10, 20] = some (m2, as) ∧
      as.length = ([10, 20] : List Nat).length ∧
      WeakList.upgrade_all m2 0 = some (m3, as.reverse) ∧
      as.reverse.map (valOf m3) = ([10, 20] : List Nat).reverse.map some ∧
      m3.heads = m2.heads ∧
      m3.nodes.map stripC = m2.nodes.map stripC) :=
  ⟨⟨by decide, by decide⟩,
    c4_upgrade_all_reverse_of_pushes (by decide) (by decide) [10, 20]⟩

/-- Witness for C5 at a concrete heap: two pushed values in list 0. -/
theorem c5_take_all_empties_list_witness :
    (WF memL2 ∧ getHead memL2 0 = some (some 2)) ∧
    (∃ mu m' hs, WeakList.upgrade_all memL2 0 = some (mu, hs) ∧
      WeakList.take_all memL2 0 = some (m', hs) ∧
      listChain m' 0 = [] ∧
      WeakList.upgrade_all m' 0 = some (m', []) ∧
      (∀ x ∈ hs, Handle.deref m' x = Handle.deref memL2 x ∧
        (Handle.deref m' x).isSome)) :=
  ⟨⟨by decide, by decide⟩,
    @c5_take_all_empties_list Nat memL2 0 (some 2) (by decide) (by decide)⟩

/-- Witness for C6 at a concrete heap: unwrapping node 2 (count 1) of
list 0. -/
theorem c6_try_unwrap_detaches_then_unwraps_witness :
    (WF memL2 ∧ getNode memL2 2 = some nodeC2) ∧
    (∃ m1, Node.unlink memL2 2 = some m1 ∧ WF m1 ∧
      (∀ l, 2 ∉ listChain m1 l) ∧
      (∀ l, 2 ∉ listChain memL2 l → listChain m1 l = listChain memL2 l) ∧
      (nodeC2.strong_count = 1 →
        Handle.try_unwrap memL2 2
          = some (memRemove m1 2 m1.dropped, Sum.inl nodeC2.value) ∧
        getNode (memRemove m1 2 m1.dropped) 2 = none ∧
        WF (memRemove m1 2 m1.dropped) ∧
        (memRemove m1 2 m1.dropped).dropped = memL2.dropped) ∧
      (∀ c, nodeC2.strong_count = Nat.succ (Nat.succ c) →
        Handle.try_unwrap memL2 2 = some (m1, Sum.inr 2) ∧
        getNode m1 2 = some { nodeC2 with prev_next := none } ∧
        countOf m1 2 = some nodeC2.strong_count ∧
        valOf m1 2 = some nodeC2.value ∧ m1.dropped = memL2.dropped)) :=
  ⟨⟨by decide, by decide⟩,
    c6_try_unwrap_detaches_then_unwraps (by decide) (by decide)⟩

/-- Witness for C7 at a concrete heap: clearing list 0 with two linked
values, both still handle-owned. -/
theorem c7_clear_drops_no_values_witness :
    (WF memL2 ∧ getHead memL2 0 = some (some 2)) ∧
    (∃ m', WeakList.clear memL2 0 = some m' ∧ WF m' ∧
      m'.dropped = memL2.dropped ∧
      listChain m' 0 = [] ∧
      (∀ l', l' ≠ 0 → listChain m' l' = listChain memL2 l') ∧
      (∀ x, countOf m' x = countOf memL2 x) ∧
      (∀ x, valOf m' x = valOf memL2 x)) :=
  ⟨⟨by decide, by decide⟩,
    @c7_clear_drops_no_values Nat memL2 0 (some 2) (by decide) (by decide)⟩

/-- Witness for C8 at a concrete heap: pushing 30 into list 0 of `memL1`
and dropping the returned handle immediately. -/
theorem c8_push_then_drop_is_noop_witness :
    (WF memL1 ∧ getHead memL1 0 = some (some 1)) ∧
    (∃ m1 m', WeakList.new_elem memL1 0 30 = some (m1, memL1.fresh) ∧
      Handle.drop m1 memL1.fresh = some m' ∧ WF m' ∧
      m'.dropped = memL1.dropped ++ [30] ∧
      getNode m' memL1.fresh = none ∧
      (∀ l', listChain m' l' = listChain memL1 l') ∧
      (∀ x, x ≠ memL1.fresh → countOf m' x = countOf memL1 x) ∧
      (∀ x, x ≠ memL1.fresh → valOf m' x = valOf memL1 x) ∧
      (∀ m2 hs, WeakList.upgrade_all m' 0 = some (m2, hs) →
        hs = listChain memL1 0)) :=
  ⟨⟨by decide, by decide⟩,
    @c8_push_then_drop_is_noop Nat memL1 0 (some 1) (by decide) (by decide) 30⟩

/-- Witness for C10 at a concrete heap with two linked nodes. -/
theorem c10_public_ops_preserve_invariant_witness :
    WF memL2 ∧
    (WF (WeakList.new memL2).1 ∧
    (∀ l v val, getHead memL2 l = some v →
      ∃ m', WeakList.new_elem memL2 l val = some (m', memL2.fresh) ∧
        WF m') ∧
    (∀ a nd, getNode memL2 a = some nd →
      ∃ m', Handle.clone memL2 a = some m' ∧ WF m') ∧
    (∀ a nd, getNode memL2 a = some nd →
      ∃ m', Handle.drop memL2 a = some m' ∧ WF m') ∧
    (∀ a nd, getNode memL2 a = some nd →
      ∃ m', Handle.detach memL2 a = some m' ∧ WF m') ∧
    (∀ a nd, getNode memL2 a = some nd →
      ∃ m' r, Handle.try_unwrap memL2 a = some (m', r) ∧ WF m') ∧
    (∀ l v, getHead memL2 l = some v →
      ∃ m' hs, WeakList.upgrade_all memL2 l = some (m', hs) ∧ WF m') ∧
    (∀ l v, getHead memL2 l = some v →
      ∃ m' hs, WeakList.take_all memL2 l = some (m', hs) ∧ WF m') ∧
    (∀ l v, getHead memL2 l = some v →
      ∃ m', WeakList.clear memL2 l = some m' ∧ WF m')) :=
  ⟨by decide, c10_public_ops_preserve_invariant (by decide)⟩
